import Mathlib

/-!
Verification of go-gearman, a keyed worker pool

Shallow embedding of `gm.go` (package `gearman`) and the properties checked
against it.

Modelling conventions.

* A Go `string` key is its byte sequence, `List (Fin 256)`.
* `uint32` arithmetic is arithmetic on `Nat` reduced modulo `2 ^ 32`; Go's
  `int` is 64 bits wide and is an `Int` obtained by two's-complement
  reinterpretation (`toInt64`).
* A panic is `Except.error` (pure functions) or a missing successor state
  (transition system).
* A work item `func() error` is opaque in Go.  Here it is a tag (its
  identity) together with the error value it returns; running the item is
  recorded in the `executed` log of the world.
* Goroutines are explicit program counters.  One step of the transition
  system is one atomic operation of the Go program: an atomic load, store or
  compare-and-swap, a channel operation, or the commit of a `select` to one
  of its ready cases.  `sync/atomic` and channel operations are sequentially
  consistent in Go, so interleaving these steps covers every execution.
* A statement `go w.start()` is taken together with the step before it: the new
  goroutine stands at the entry of `start` and has had no effect yet, so `Start`
  is one step.  `worker.start` receives an item and resets its timer in one
  step; the call `cb()` is one step.
* The expiry of an idle timer is a step of its own (`tick`) that may happen at
  any time: the model puts no bound on how long anything takes.
-/

namespace GoGearman

/-! ## Router: `fnv32` and `getMod` (gm.go 210-223) -/

/-- Byte sequence of a Go string. -/
abbrev Key := List (Fin 256)

/-- The local constant `prime32` of `fnv32`. -/
def prime32 : Nat := 16777619

/-- The initial value of `hash` in `fnv32`. -/
def offset32 : Nat := 2166136261

/-- The loop `for i := 0; i < len(key); i++` of `fnv32`, on the `uint32`
accumulator `hash`: first `hash *= prime32`, then `hash ^= uint32(key[i])`. -/
def fnv32Loop (hash : Nat) : Key → Nat
  | [] => hash
  | b :: rest => fnv32Loop (((hash * prime32) % 2 ^ 32) ^^^ b.val) rest

/-- Go conversion of an unsigned machine word to the 64-bit signed `int`. -/
def toInt64 (x : Nat) : Int :=
  if x % 2 ^ 64 < 2 ^ 63 then ((x % 2 ^ 64 : Nat) : Int) else ((x % 2 ^ 64 : Nat) : Int) - 2 ^ 64

/-- Source function `fnv32(key string) int`. -/
def fnv32 (key : Key) : Int :=
  toInt64 (fnv32Loop offset32 key)

/-- Source function `getMod(key string, length int) int`: `num % length` with Go's truncated
remainder; a zero divisor is the run-time panic "integer divide by zero". -/
def getMod (key : Key) (length : Int) : Except String Int :=
  if length = 0 then .error "runtime error: integer divide by zero"
  else .ok ((fnv32 key).tmod length)

/-- The hash named by the specification: 32-bit FNV-1a, for each byte
`h := ((h XOR b) * 16777619) mod 2^32`, starting from 2166136261. -/
def specFNV1a32 (key : Key) : Nat :=
  key.foldl (fun h b => ((h ^^^ b.val) * 16777619) % 2 ^ 32) 2166136261

/-- The 32-bit FNV-1 hash: for each byte `h := ((h * 16777619) mod 2^32) XOR b`,
starting from 2166136261 (multiply first, then XOR). -/
def specFNV1_32 (key : Key) : Nat :=
  key.foldl (fun h b => ((h * 16777619) % 2 ^ 32) ^^^ b.val) 2166136261

/-! ## Data model (gm.go 15-26, 143-149) -/

/-- A Go `error` value, identified by its message. -/
abbrev GoError := String

/-- A work item `func() error`: its identity and the value it returns when called. -/
structure WorkItem where
  tag : Nat
  result : Option GoError
deriving DecidableEq, Repr

/-- An error callback `func(error)`, identified by a number; `0` is the package
function `errcall`, which does nothing. -/
abbrev ErrSink := Nat

/-- Program counter of one goroutine executing `worker.start` (gm.go 49-69). -/
inductive LoopPC where
  /-- Spawned by `go w.start()`, before `w.setSleeping(false)` (line 50). -/
  | entry
  /-- At the loop condition `w.isRunning()` (line 53). -/
  | head
  /-- At the `select` (line 54), no case committed yet. -/
  | select
  /-- Received `cb` from the queue (line 55) and reset the timer (line 56);
  about to call `cb()` (line 57). -/
  | run (cb : WorkItem)
  /-- Committed to `<-w.ctx.Done()` (line 59); about to call `w.done()` and return. -/
  | cancelled
  /-- Committed to `<-timer.C` (line 63); about to call `w.setSleeping(true)` and return. -/
  | idle
  /-- Left the `for` loop; about to call `w.done()` (line 68). -/
  | tail
deriving DecidableEq, Repr

/-- A goroutine executing `worker.start`, with its local `timer`:
`timerFired` says that a value is waiting in `timer.C`. -/
structure RunLoop where
  pc : LoopPC
  timerFired : Bool
deriving DecidableEq, Repr

/-- The struct `worker`.  `running` and `sleeping` are the `int32` flags (only 0 and 1 are
ever stored); `cancelled` says that `w.cancel` has been called; the channel `queue` is its
capacity and its buffered items, oldest first; `loops` are the goroutines currently inside
`w.start()`.  `wakeLog` is a history of the flag `sleeping`, most recent event first:
`true` for a compare-and-swap of `atomicWaking` that succeeded, `false` for a
`setSleeping(true)`. -/
structure worker where
  id : Int
  running : Bool
  sleeping : Bool
  cancelled : Bool
  queueCap : Nat
  queue : List WorkItem
  errcall : Option ErrSink
  idleTimeout : Int
  loops : List RunLoop
  wakeLog : List Bool
deriving DecidableEq, Repr

/-- The struct `Gearman`.  `ctxDone` is `g.ctx.Err() != nil`, `hasCancel` is
`g.cancel != nil`; the map `workers` has the keys `0 .. len-1` and is the list of its values
in key order. -/
structure Gearman where
  ctxDone : Bool
  hasCancel : Bool
  workers : List worker
  errcall : Option ErrSink
  idleTimeout : Int
deriving DecidableEq, Repr

/-- The type `optionCall`, by the two functions that produce one. -/
inductive optionCall where
  | SetIdleTimeout (idleTimeout : Int)
  | SetExceptionCall (cb : Option ErrSink)
deriving DecidableEq, Repr

/-- Package variable `defaultIdleTimeout`, five minutes in nanoseconds. -/
def defaultIdleTimeout : Int := 5 * 60 * 1000000000

/-- Effect of calling an `optionCall` on the pool under construction. -/
def optionCall.apply (g : Gearman) : optionCall → Gearman
  | .SetIdleTimeout d => { g with idleTimeout := d }
  | .SetExceptionCall cb => { g with errcall := cb }

/-! ## Construction (gm.go 28-40, 151-182) -/

/-- The largest capacity that `make(chan func() error, n)` accepts: the Go run-time
(`makechan`) panics when the buffer of 8-byte elements does not fit in
`maxAlloc - hchanSize` bytes, which is `2^48 - 96` on a 64-bit platform with 48-bit heap
addresses; so `n` may be at most `2^45 - 12`.  (An allocation below that limit that the
machine cannot satisfy ends the program; the model does not represent the size of the
memory.) -/
def chanCapLimit : Int := 35184372088820

/-- Source function `newWorker(ctx, num)`: panics when `num <= 0`, and `make(chan, num)`
panics when `num` exceeds `chanCapLimit`. -/
def newWorker (num : Int) : Except String worker :=
  if num ≤ 0 then .error "invalid num"
  else if chanCapLimit < num then .error "makechan: size out of range"
  else .ok { id := 0, running := true, sleeping := false, cancelled := false,
             queueCap := num.toNat, queue := [], errcall := none, idleTimeout := 0,
             loops := [], wakeLog := [] }

/-- The loop `for i := 0; i < wnum; i++` of `NewGearmanWithContext`, with `n` iterations
left to run and `i` the current index. -/
def workerLoop (qnum : Int) (gm : Gearman) (i : Int) : Nat → Except String Gearman
  | 0 => .ok gm
  | n + 1 =>
    match newWorker qnum with
    | .error e => .error e
    | .ok w =>
      workerLoop qnum
        { gm with workers := gm.workers ++
            [{ w with id := i, idleTimeout := gm.idleTimeout, errcall := gm.errcall }] }
        (i + 1) n

/-- Source function `NewGearmanWithContext(ctx, wnum, qnum, options...)`; `ctxDone` says
whether the context handed in is already cancelled. -/
def NewGearmanWithContext (ctxDone : Bool) (wnum qnum : Int) (options : List optionCall) :
    Except String Gearman :=
  workerLoop qnum
    (options.foldl optionCall.apply
      { ctxDone := ctxDone, hasCancel := false, workers := [], errcall := some 0,
        idleTimeout := defaultIdleTimeout })
    0 wnum.toNat

/-- Source function `NewGearman(wnum, qnum)`: a fresh cancellable context, no options, and
`gm.cancel` set. -/
def NewGearman (wnum qnum : Int) : Except String Gearman :=
  match NewGearmanWithContext false wnum qnum [] with
  | .error e => .error e
  | .ok gm => .ok { gm with hasCancel := true }

/-- The map lookup `g.workers[mod]`: a missing key yields the nil pointer. -/
def lookupWorker (ws : List worker) (mod : Int) : Option worker :=
  if 0 ≤ mod then ws[mod.toNat]? else none

/-- Outcome of `Gearman.Submit` up to its call of `wo.enqueue(cb)`. -/
inductive SubmitEntry where
  /-- Returned `errors.New("gearman is already stopped !!!")`. -/
  | stopped (e : GoError)
  /-- Run-time panic. -/
  | panic (msg : String)
  /-- Calls `enqueue` on the worker with this key; returns `nil` afterwards. -/
  | enqueue (wid : Nat)
deriving DecidableEq, Repr

/-- Source function `Gearman.Submit` (gm.go 199-208) up to the call `wo.enqueue(cb)`. -/
def Gearman.submitEntry (g : Gearman) (key : Key) : SubmitEntry :=
  if g.ctxDone then .stopped "gearman is already stopped !!!"
  else
    match getMod key g.workers.length with
    | .error e => .panic e
    | .ok mod =>
      match lookupWorker g.workers mod with
      | none => .panic "invalid memory address or nil pointer dereference"
      | some _ => .enqueue mod.toNat

/-! ## Worker operations (gm.go 42-125) -/

/-- Source method `worker.isRunning`. -/
def worker.isRunning (w : worker) : Bool := w.running

/-- Source method `worker.setRunning`. -/
def worker.setRunning (w : worker) (b : Bool) : worker := { w with running := b }

/-- Source method `worker.isSleeping`. -/
def worker.isSleeping (w : worker) : Bool := w.sleeping

/-- Source method `worker.setSleeping`. -/
def worker.setSleeping (w : worker) (b : Bool) : worker := { w with sleeping := b }

/-- Source method `worker.atomicWaking`: compare-and-swap of `sleeping` from 1 to 0; the
Boolean is the result of the swap. -/
def worker.atomicWaking (w : worker) : Bool × worker :=
  if w.sleeping then (true, { w with sleeping := false, wakeLog := true :: w.wakeLog })
  else (false, w)

/-- The statement `go w.start()`: one more goroutine at the entry of `start`. -/
def worker.spawn (w : worker) : worker :=
  { w with loops := w.loops ++ [{ pc := .entry, timerFired := false }] }

/-- The statement `if w.atomicWaking() { go w.start() }` of `enqueue` (lines 78-80, 87-89). -/
def worker.wake (w : worker) : worker :=
  if w.atomicWaking.1 then w.atomicWaking.2.spawn else w.atomicWaking.2

/-- Whether `<-w.ctx.Done()` is ready: the worker context is derived from the pool
context, so it is done when the pool context is, or when `w.cancel` was called. -/
def worker.ctxDone (poolDone : Bool) (w : worker) : Bool := poolDone || w.cancelled

/-- The case a `select` commits to. -/
inductive SelectCase where
  | recv
  | done
  | timer
deriving DecidableEq, Repr

/-- Visible effect of one step of a run-loop outside its worker. -/
inductive LoopEffect where
  | silent
  /-- `w.done()`: one atomic increment of `gincr`. -/
  | counted
  /-- The call `cb()`; its return value is dropped by `start`. -/
  | executed (cb : WorkItem)
deriving DecidableEq, Repr

/-- One atomic step of the `j`-th goroutine running `worker.start` (gm.go 49-69).  At the
`select`, `sel` is the case taken, which must be ready; elsewhere `sel` is ignored. -/
def worker.startStep (poolDone : Bool) (w : worker) (j : Nat) (sel : SelectCase) :
    Option (worker × LoopEffect) :=
  match w.loops[j]? with
  | none => none
  | some l =>
    match l.pc with
    | .entry =>
      some ({ w with sleeping := false,
                     loops := w.loops.set j { pc := .head, timerFired := false } }, .silent)
    | .head =>
      some ({ w with loops :=
                w.loops.set j { l with pc := if w.isRunning then .select else .tail } }, .silent)
    | .select =>
      match sel with
      | .recv =>
        match w.queue with
        | [] => none
        | cb :: rest =>
          some ({ w with queue := rest,
                         loops := w.loops.set j { pc := .run cb, timerFired := false } }, .silent)
      | .done =>
        if w.ctxDone poolDone then
          some ({ w with loops := w.loops.set j { l with pc := .cancelled } }, .silent)
        else none
      | .timer =>
        if l.timerFired then
          some ({ w with loops := w.loops.set j { pc := .idle, timerFired := false } }, .silent)
        else none
    | .run cb => some ({ w with loops := w.loops.set j { l with pc := .head } }, .executed cb)
    | .cancelled => some ({ w with loops := w.loops.eraseIdx j }, .counted)
    | .idle =>
      some ({ w with sleeping := true, loops := w.loops.eraseIdx j,
                     wakeLog := false :: w.wakeLog }, .silent)
    | .tail => some ({ w with loops := w.loops.eraseIdx j }, .counted)

/-- Expiry of the idle timer of the `j`-th run-loop: a value becomes available in its
`timer.C`.  The timer exists once the loop has passed its entry. -/
def worker.tick (w : worker) (j : Nat) : Option worker :=
  match w.loops[j]? with
  | none => none
  | some l =>
    match l.pc with
    | .head | .select | .run _ => some { w with loops := w.loops.set j { l with timerFired := true } }
    | _ => none

/-! ## The pool as a transition system (gm.go 77-95, 184-208) -/

/-- Program counter of a call of `worker.enqueue` (gm.go 77-90). -/
inductive EnqPC where
  /-- Before the first `atomicWaking` (line 78). -/
  | wake1
  /-- At the `select` (line 82). -/
  | send
  /-- Before the second `atomicWaking` (line 87). -/
  | wake2
deriving DecidableEq, Repr

/-- A call of `worker.enqueue(cb)` in progress on the worker with key `wid`. -/
structure EnqCall where
  wid : Nat
  cb : WorkItem
  pc : EnqPC
deriving DecidableEq, Repr

/-- A call of `Gearman.Stop` in progress, after its `g.cancel()`: `todo` are the workers
the `range` loop has not reached yet, `cur` is the worker inside whose `stop()` the call
is, between `setRunning(false)` and `w.cancel()`. -/
structure StopCall where
  todo : List Nat
  cur : Option Nat
deriving DecidableEq, Repr

/-- The running program: the pool, the package counter `gincr`, the calls in progress, and
four logs: the items called so far, the invocations of `errcall`, the number of calls of
`Start` and the number of calls of `Stop` that have returned. -/
structure World where
  g : Gearman
  gincr : Nat
  enqueues : List EnqCall
  stops : List StopCall
  executed : List WorkItem
  errcalls : List (ErrSink × GoError)
  startCalls : Nat
  stopReturns : Nat
deriving DecidableEq, Repr

/-- The program right after construction of the pool; `gincr` is counted from 0. -/
def World.init (g : Gearman) : World :=
  { g := g, gincr := 0, enqueues := [], stops := [], executed := [], errcalls := [],
    startCalls := 0, stopReturns := 0 }

/-- Replace the worker with key `i`. -/
def World.setWorker (s : World) (i : Nat) (w : worker) : World :=
  { s with g := { s.g with workers := s.g.workers.set i w } }

/-- Source method `worker.call` (gm.go 42-47): call `cb`, and hand a non-nil error to
`w.errcall`; calling a nil `w.errcall` is a run-time panic (`none`). -/
def worker.call (w : worker) (cb : WorkItem) (s : World) : Option World :=
  match cb.result with
  | none => some { s with executed := s.executed ++ [cb] }
  | some err =>
    match w.errcall with
    | none => none
    | some sink => some { s with executed := s.executed ++ [cb],
                                 errcalls := s.errcalls ++ [(sink, err)] }

/-- Apply the effect of a run-loop step to the program. -/
def World.applyEffect (s : World) : LoopEffect → World
  | .silent => s
  | .counted => { s with gincr := s.gincr + 1 }
  | .executed cb => { s with executed := s.executed ++ [cb] }

/-- The atomic steps of the program. -/
inductive Action where
  /-- A call of `Gearman.Start` (lines 184-188): one `go w.start()` per worker. -/
  | Start
  /-- A call of `Gearman.Submit(key, cb)` up to its call of `enqueue`. -/
  | Submit (key : Key) (cb : WorkItem)
  /-- Next step of the `c`-th `enqueue` in progress; at its `select` the send case. -/
  | enqueue (c : Nat)
  /-- The `select` of the `c`-th `enqueue` in progress takes `<-w.ctx.Done()`. -/
  | enqueueDone (c : Nat)
  /-- Next step of the `j`-th run-loop of worker `i`. -/
  | loop (i j : Nat) (sel : SelectCase)
  /-- The idle timer of the `j`-th run-loop of worker `i` expires. -/
  | tick (i j : Nat)
  /-- A call of `Gearman.Stop` executes `if g.cancel != nil { g.cancel() }`. -/
  | StopBegin
  /-- The `c`-th `Stop` in progress reaches worker `i`: `w.setRunning(false)`. -/
  | stopRunning (c i : Nat)
  /-- The `c`-th `Stop` in progress executes `w.cancel()` on its current worker. -/
  | stopCancel (c : Nat)
  /-- The `c`-th `Stop` in progress returns. -/
  | StopReturn (c : Nat)
  /-- The caller of `NewGearmanWithContext` cancels the context it handed in. -/
  | cancelCtx
deriving DecidableEq, Repr

/-- One step of the `c`-th call of `enqueue` in progress; `viaDone` selects the
`<-w.ctx.Done()` case of its `select`. -/
def World.enqueueStep (s : World) (c : Nat) (viaDone : Bool) : Option World :=
  match s.enqueues[c]? with
  | none => none
  | some call =>
    match s.g.workers[call.wid]? with
    | none => none
    | some w =>
      match call.pc with
      | .wake1 =>
        if viaDone then none
        else some { s.setWorker call.wid w.wake with
                    enqueues := s.enqueues.set c { call with pc := .send } }
      | .send =>
        if viaDone then
          if w.ctxDone s.g.ctxDone then
            some { s with enqueues := s.enqueues.set c { call with pc := .wake2 } }
          else none
        else if w.queue.length < w.queueCap then
          some { s.setWorker call.wid { w with queue := w.queue ++ [call.cb] } with
                 enqueues := s.enqueues.set c { call with pc := .wake2 } }
        else none
      | .wake2 =>
        if viaDone then none
        else some { s.setWorker call.wid w.wake with enqueues := s.enqueues.eraseIdx c }

/-- The transition function: the successor of `s` under an action, `none` when the action
cannot be taken in `s` (it is blocked, it names nothing, or the program panics). -/
def step (s : World) : Action → Option World
  | .Start =>
    some { s with g := { s.g with workers := s.g.workers.map worker.spawn },
                  startCalls := s.startCalls + 1 }
  | .Submit key cb =>
    match s.g.submitEntry key with
    | .stopped _ => some s
    | .panic _ => none
    | .enqueue wid => some { s with enqueues := s.enqueues ++ [{ wid := wid, cb := cb, pc := .wake1 }] }
  | .enqueue c => s.enqueueStep c false
  | .enqueueDone c => s.enqueueStep c true
  | .loop i j sel =>
    match s.g.workers[i]? with
    | none => none
    | some w =>
      match w.startStep s.g.ctxDone j sel with
      | none => none
      | some (w1, eff) => some ((s.setWorker i w1).applyEffect eff)
  | .tick i j =>
    match s.g.workers[i]? with
    | none => none
    | some w =>
      match w.tick j with
      | none => none
      | some w1 => some (s.setWorker i w1)
  | .StopBegin =>
    some { s with g := { s.g with ctxDone := s.g.ctxDone || s.g.hasCancel },
                  stops := s.stops ++ [{ todo := List.range s.g.workers.length, cur := none }] }
  | .stopRunning c i =>
    match s.stops[c]?, s.g.workers[i]? with
    | some call, some w =>
      if call.cur = none ∧ i ∈ call.todo then
        some { s.setWorker i (w.setRunning false) with
               stops := s.stops.set c { todo := call.todo.erase i, cur := some i } }
      else none
    | _, _ => none
  | .stopCancel c =>
    match s.stops[c]? with
    | some call =>
      match call.cur with
      | none => none
      | some i =>
        match s.g.workers[i]? with
        | none => none
        | some w =>
          some { s.setWorker i { w with cancelled := true } with
                 stops := s.stops.set c { call with cur := none } }
    | none => none
  | .StopReturn c =>
    match s.stops[c]? with
    | some call =>
      if call.todo = [] ∧ call.cur = none then
        some { s with stops := s.stops.eraseIdx c, stopReturns := s.stopReturns + 1 }
      else none
    | none => none
  | .cancelCtx =>
    if s.g.hasCancel then none else some { s with g := { s.g with ctxDone := true } }

/-- Run a schedule: the actions are taken in order, each one only if the policy `ok`
admits it in the state it is taken in. -/
def runWith (ok : World → Action → Bool) : List Action → World → Option World
  | [], s => some s
  | a :: rest, s =>
    if ok s a then
      match step s a with
      | none => none
      | some s1 => runWith ok rest s1
    else none

/-- The policy that admits every action. -/
def anySchedule : World → Action → Bool := fun _ _ => true

/-- The policy "`Start()` is called at most once". -/
def startOnce (s : World) : Action → Bool
  | .Start => s.startCalls == 0
  | _ => true


/-! ## Relational presentation of the steps

The same steps as `worker.startStep` and `step`, one constructor per program point;
`startStep_sound` and `step_sound` show that every step of the functions is one of these. -/

/-- The steps of `worker.startStep`, case by case. -/
inductive LoopStep (poolDone : Bool) (w : worker) (j : Nat) : worker → LoopEffect → Prop where
  | entry (l : RunLoop) : w.loops[j]? = some l → l.pc = .entry →
      LoopStep poolDone w j
        { w with sleeping := false, loops := w.loops.set j { pc := .head, timerFired := false } }
        .silent
  | head (l : RunLoop) : w.loops[j]? = some l → l.pc = .head →
      LoopStep poolDone w j
        { w with loops := w.loops.set j { l with pc := if w.running then .select else .tail } }
        .silent
  | recv (l : RunLoop) (cb : WorkItem) (rest : List WorkItem) :
      w.loops[j]? = some l → l.pc = .select → w.queue = cb :: rest →
      LoopStep poolDone w j
        { w with queue := rest, loops := w.loops.set j { pc := .run cb, timerFired := false } }
        .silent
  | done (l : RunLoop) : w.loops[j]? = some l → l.pc = .select → w.ctxDone poolDone = true →
      LoopStep poolDone w j { w with loops := w.loops.set j { l with pc := .cancelled } } .silent
  | timer (l : RunLoop) : w.loops[j]? = some l → l.pc = .select → l.timerFired = true →
      LoopStep poolDone w j
        { w with loops := w.loops.set j { pc := .idle, timerFired := false } } .silent
  | run (l : RunLoop) (cb : WorkItem) : w.loops[j]? = some l → l.pc = .run cb →
      LoopStep poolDone w j { w with loops := w.loops.set j { l with pc := .head } }
        (.executed cb)
  | cancelled (l : RunLoop) : w.loops[j]? = some l → l.pc = .cancelled →
      LoopStep poolDone w j { w with loops := w.loops.eraseIdx j } .counted
  | idle (l : RunLoop) : w.loops[j]? = some l → l.pc = .idle →
      LoopStep poolDone w j
        { w with sleeping := true, loops := w.loops.eraseIdx j, wakeLog := false :: w.wakeLog }
        .silent
  | tail (l : RunLoop) : w.loops[j]? = some l → l.pc = .tail →
      LoopStep poolDone w j { w with loops := w.loops.eraseIdx j } .counted

/-- The steps of `step`, case by case. -/
inductive Step (s : World) : Action → World → Prop where
  | start :
      Step s .Start
        { s with g := { s.g with workers := s.g.workers.map worker.spawn },
                 startCalls := s.startCalls + 1 }
  | submitStopped (key : Key) (cb : WorkItem) : s.g.ctxDone = true →
      Step s (.Submit key cb) s
  | submit (key : Key) (cb : WorkItem) (mod : Int) (w : worker) : s.g.ctxDone = false →
      getMod key s.g.workers.length = .ok mod → lookupWorker s.g.workers mod = some w →
      Step s (.Submit key cb)
        { s with enqueues := s.enqueues ++ [{ wid := mod.toNat, cb := cb, pc := .wake1 }] }
  | enqWake1 (c : Nat) (call : EnqCall) (w : worker) :
      s.enqueues[c]? = some call → s.g.workers[call.wid]? = some w → call.pc = .wake1 →
      Step s (.enqueue c)
        { s.setWorker call.wid w.wake with
          enqueues := s.enqueues.set c { call with pc := .send } }
  | enqSend (c : Nat) (call : EnqCall) (w : worker) :
      s.enqueues[c]? = some call → s.g.workers[call.wid]? = some w → call.pc = .send →
      w.queue.length < w.queueCap →
      Step s (.enqueue c)
        { s.setWorker call.wid { w with queue := w.queue ++ [call.cb] } with
          enqueues := s.enqueues.set c { call with pc := .wake2 } }
  | enqWake2 (c : Nat) (call : EnqCall) (w : worker) :
      s.enqueues[c]? = some call → s.g.workers[call.wid]? = some w → call.pc = .wake2 →
      Step s (.enqueue c)
        { s.setWorker call.wid w.wake with enqueues := s.enqueues.eraseIdx c }
  | enqDone (c : Nat) (call : EnqCall) (w : worker) :
      s.enqueues[c]? = some call → s.g.workers[call.wid]? = some w → call.pc = .send →
      w.ctxDone s.g.ctxDone = true →
      Step s (.enqueueDone c)
        { s with enqueues := s.enqueues.set c { call with pc := .wake2 } }
  | loop (i j : Nat) (sel : SelectCase) (w w1 : worker) (eff : LoopEffect) :
      s.g.workers[i]? = some w → LoopStep s.g.ctxDone w j w1 eff →
      Step s (.loop i j sel) ((s.setWorker i w1).applyEffect eff)
  | tick (i j : Nat) (w : worker) (l : RunLoop) :
      s.g.workers[i]? = some w → w.loops[j]? = some l →
      Step s (.tick i j)
        (s.setWorker i { w with loops := w.loops.set j { l with timerFired := true } })
  | stopBegin :
      Step s .StopBegin
        { s with g := { s.g with ctxDone := s.g.ctxDone || s.g.hasCancel },
                 stops := s.stops ++ [{ todo := List.range s.g.workers.length, cur := none }] }
  | stopRunning (c i : Nat) (call : StopCall) (w : worker) :
      s.stops[c]? = some call → s.g.workers[i]? = some w → call.cur = none → i ∈ call.todo →
      Step s (.stopRunning c i)
        { s.setWorker i (w.setRunning false) with
          stops := s.stops.set c { todo := call.todo.erase i, cur := some i } }
  | stopCancel (c i : Nat) (call : StopCall) (w : worker) :
      s.stops[c]? = some call → call.cur = some i → s.g.workers[i]? = some w →
      Step s (.stopCancel c)
        { s.setWorker i { w with cancelled := true } with
          stops := s.stops.set c { call with cur := none } }
  | stopReturn (c : Nat) (call : StopCall) :
      s.stops[c]? = some call → call.todo = [] → call.cur = none →
      Step s (.StopReturn c)
        { s with stops := s.stops.eraseIdx c, stopReturns := s.stopReturns + 1 }
  | cancelCtx : s.g.hasCancel = false →
      Step s .cancelCtx { s with g := { s.g with ctxDone := true } }

/-! ## Invariants and observations used by the properties -/

/-- The items the run-loops of a worker have received and not finished calling. -/
def worker.held (w : worker) : List WorkItem :=
  w.loops.filterMap (fun l => match l.pc with | .run cb => some cb | _ => none)

/-- At most one goroutine is inside `w.start()`, none while the worker is marked sleeping,
and none (with the flag clear) as long as `Start` has not been called. -/
def worker.SingleLoop (startCalls : Nat) (w : worker) : Prop :=
  w.loops.length ≤ 1 ∧ (w.sleeping = true → w.loops = []) ∧
    (startCalls = 0 → w.loops = [] ∧ w.sleeping = false)

/-- Every worker of the pool satisfies `worker.SingleLoop`. -/
def World.SingleLoops (s : World) : Prop :=
  ∀ w ∈ s.g.workers, w.SingleLoop s.startCalls

/-- A worker as the constructors leave it. -/
def worker.Fresh (w : worker) : Prop :=
  w.running = true ∧ w.sleeping = false ∧ w.cancelled = false ∧ w.queue = [] ∧
    w.loops = [] ∧ w.wakeLog = []

/-- The worker that the construction loop stores under key `i`. -/
def builtWorker (qnum : Int) (gm : Gearman) (i : Int) : worker :=
  { id := i, running := true, sleeping := false, cancelled := false, queueCap := qnum.toNat,
    queue := [], errcall := gm.errcall, idleTimeout := gm.idleTimeout, loops := [],
    wakeLog := [] }

/-- The pool `g` is the result of one of the two public constructors. -/
def Constructed (g : Gearman) : Prop :=
  ∃ (ctxDone : Bool) (wnum qnum : Int) (options : List optionCall),
    NewGearmanWithContext ctxDone wnum qnum options = .ok g ∨ NewGearman wnum qnum = .ok g

/-- The history of the flag `sleeping` alternates, and the flag is set exactly when the
most recent event is a `setSleeping(true)`. -/
def worker.WakeLogOk (w : worker) : Prop :=
  List.Chain' (fun a b => a ≠ b) w.wakeLog ∧ (w.sleeping = true ↔ w.wakeLog.head? = some false)

/-! ## Concrete pools, items and schedules -/

/-- The pool under construction before the loop over the workers, with no options. -/
def emptyPool : Gearman :=
  { ctxDone := false, hasCancel := false, workers := [], errcall := some 0,
    idleTimeout := defaultIdleTimeout }

/-- The value of `NewGearman(wnum, qnum)` for `wnum <= 0`: a pool without workers. -/
def zeroPool : Gearman := { emptyPool with hasCancel := true }

/-- The value of `NewGearman(1, 1)`. -/
def pool11 : Gearman :=
  { emptyPool with hasCancel := true, workers := [builtWorker 1 emptyPool 0] }

/-- The value of `NewGearmanWithContext(ctx, 1, 1)` for a context that is not cancelled. -/
def ctxPool11 : Gearman :=
  { emptyPool with workers := [builtWorker 1 emptyPool 0] }

/-- The value of `NewGearman(3, 2)`. -/
def pool32 : Gearman :=
  { emptyPool with hasCancel := true,
                   workers := [builtWorker 2 emptyPool 0, builtWorker 2 emptyPool 1,
                               builtWorker 2 emptyPool 2] }

/-- A work item that returns `nil`. -/
def okItem (tag : Nat) : WorkItem := { tag := tag, result := none }

/-- A work item that returns a non-nil error. -/
def failingItem (tag : Nat) : WorkItem := { tag := tag, result := some "boom" }

/-- The state a schedule leads to (the start state if it cannot be run). -/
def finalOf (ok : World → Action → Bool) (sched : List Action) (s : World) : World :=
  (runWith ok sched s).getD s

/-- `Start`; the run-loop of worker 0 enters its loop; a failing item is submitted and
enqueued; the run-loop receives it and calls it. -/
def failingItemSchedule : List Action :=
  [.Start, .loop 0 0 .recv, .loop 0 0 .recv, .Submit [] (failingItem 1), .enqueue 0, .enqueue 0,
   .enqueue 0, .loop 0 0 .recv, .loop 0 0 .recv]

/-- A worker whose run-loop has called `w.done()`: `Start` was called, no goroutine is
inside `w.start()` any more, and the worker was not put to sleep. -/
def worker.terminated (startCalls : Nat) (w : worker) : Bool :=
  startCalls != 0 && w.loops.isEmpty && !w.sleeping

/-- The counter `gincr` is the number of workers whose run-loop has called `w.done()`. -/
def World.Counted (s : World) : Prop :=
  s.gincr = s.g.workers.countP (worker.terminated s.startCalls)

/-- `Start`; the run-loop of worker 0 reaches its `select`; its idle timer expires and the
`select` takes the timer case: the worker sleeps.  Then a submission wakes it. -/
def sleepWakeSchedule : List Action :=
  [.Start, .loop 0 0 .recv, .loop 0 0 .recv, .tick 0 0, .loop 0 0 .timer, .loop 0 0 .recv,
   .Submit [] (okItem 1), .enqueue 0, .enqueue 0, .enqueue 0]

/-- `Start`; the run-loop of worker 0 goes to sleep on its idle timer; then `Stop` runs to
its return. -/
def sleepThenStopSchedule : List Action :=
  [.Start, .loop 0 0 .recv, .loop 0 0 .recv, .tick 0 0, .loop 0 0 .timer, .loop 0 0 .recv,
   .StopBegin, .stopRunning 0 0, .stopCancel 0, .StopReturn 0]

/-- `Start`; the run-loop of worker 0 receives item 1; while item 1 runs the idle timer
expires and item 2 is submitted, its `enqueue` running to its return; item 1 returns; the
run-loop comes back to its `select`, where the queue and the timer are both ready, and the
`select` takes the timer case. -/
def lostWakeSchedule : List Action :=
  [.Start, .loop 0 0 .recv, .loop 0 0 .recv,
   .Submit [] (okItem 1), .enqueue 0, .enqueue 0, .enqueue 0,
   .loop 0 0 .recv, .tick 0 0,
   .Submit [] (okItem 2), .enqueue 0, .enqueue 0, .enqueue 0,
   .loop 0 0 .recv, .loop 0 0 .recv, .loop 0 0 .timer, .loop 0 0 .recv]

/-- `Start`; the run-loop of worker 0 reaches its `select`; `Stop` runs to its return; the
`select` takes `<-w.ctx.Done()` and the run-loop calls `w.done()`. -/
def startStopSchedule : List Action :=
  [.Start, .loop 0 0 .recv, .loop 0 0 .recv, .StopBegin, .stopRunning 0 0, .stopCancel 0,
   .StopReturn 0, .loop 0 0 .done, .loop 0 0 .recv]

/-- The item `cb` is in the queue of the worker or held by one of its run-loops. -/
def worker.Has (w : worker) (cb : WorkItem) : Prop := cb ∈ w.queue ∨ cb ∈ w.held

/-- The item `cb` is somewhere in the program: it has been called, or a worker has it, or
it is the argument of a call of `enqueue` in progress. -/
def World.InSystem (s : World) (cb : WorkItem) : Prop :=
  cb ∈ s.executed ∨ (∃ w ∈ s.g.workers, w.Has cb) ∨ (∃ c ∈ s.enqueues, c.cb = cb)

/-- On a pool with one worker: `Start`; the run-loop passes its running check and stands
before its `select`; `Stop` runs to its return. -/
def stopAtSelectSchedule : List Action :=
  [.Start, .loop 0 0 .recv, .loop 0 0 .recv, .StopBegin, .stopRunning 0 0, .stopCancel 0,
   .StopReturn 0]

/-- After `Stop` has returned: `Submit` of item 9, whose `enqueue` sends it to the queue
and returns. -/
def submitAfterStopSchedule : List Action :=
  [.Submit [] (okItem 9), .enqueue 0, .enqueue 0, .enqueue 0]

/-- The run-loop that stood before its `select` receives an item and calls it. -/
def receiveAndRunSchedule : List Action :=
  [.loop 0 0 .recv, .loop 0 0 .recv]

/-- The pool `NewGearman(1, 1)` after `stopAtSelectSchedule`: `Stop` has returned. -/
def stoppedWorld : World := finalOf anySchedule stopAtSelectSchedule (World.init pool11)

/-- After `Stop` has returned: a `Submit` of item 9, then the run-loop takes the
`<-w.ctx.Done()` case and exits. -/
def rejectedSubmitSchedule : List Action :=
  [.Submit [] (okItem 9), .loop 0 0 .done, .loop 0 0 .recv]

/-- What a run-loop may still call without passing its running check again: one item if it
holds one or stands at its `select`, none otherwise. -/
def RunLoop.credit (l : RunLoop) : Nat :=
  match l.pc with
  | .select => 1
  | .run _ => 1
  | _ => 0

/-- Sum of `RunLoop.credit` over the run-loops of a worker. -/
def worker.credit (w : worker) : Nat := (w.loops.map RunLoop.credit).sum

/-- Sum of `worker.credit` over the workers of the pool. -/
def World.credit (s : World) : Nat := (s.g.workers.map worker.credit).sum

/-- A bound on the number of its own steps a run-loop takes before it returns, once
`running` is 0 and the worker context is cancelled. -/
def RunLoop.rank (l : RunLoop) : Nat :=
  match l.pc with
  | .select => 4
  | .run _ => 3
  | .entry => 3
  | .head => 2
  | _ => 1

/-- Sum of `RunLoop.rank` over the run-loops of a worker. -/
def worker.rank (w : worker) : Nat := (w.loops.map RunLoop.rank).sum

/-- Every worker has been stopped: `running` is 0 and its context is cancelled. -/
def World.Stopped (s : World) : Prop :=
  ∀ w ∈ s.g.workers, w.running = false ∧ w.cancelled = true

/-- Every call of `Stop` in progress has stopped the workers it has left behind, and once
a call of `Stop` has returned every worker is stopped. -/
def World.StopsOk (s : World) : Prop :=
  (∀ call ∈ s.stops, ∀ (i : Nat) (w : worker), s.g.workers[i]? = some w →
    i ∈ call.todo ∨ (call.cur = some i ∧ w.running = false) ∨
      (w.running = false ∧ w.cancelled = true)) ∧
  (s.stopReturns ≠ 0 → s.Stopped)

/-- The flags `running` and `cancelled` of `s1` are those of `s` or further on the way to
stopped. -/
def World.FlagsMono (s s1 : World) : Prop :=
  ∀ (i : Nat) (w1 : worker), s1.g.workers[i]? = some w1 →
    ∃ w, s.g.workers[i]? = some w ∧ (w.running = false → w1.running = false) ∧
      (w.cancelled = true → w1.cancelled = true)

/-- On `NewGearman(1, 1)`: `Start`; item 7 is submitted and enqueued; the run-loop passes
its running check; `Stop` runs to its return. -/
def stopWithQueuedItemSchedule : List Action :=
  [.Start, .loop 0 0 .recv, .Submit [] (okItem 7), .enqueue 0, .enqueue 0, .enqueue 0,
   .loop 0 0 .recv, .StopBegin, .stopRunning 0 0, .stopCancel 0, .StopReturn 0]

/-- Number of calls of a work item made by a run-loop step with this effect. -/
def LoopEffect.calls : LoopEffect → Nat
  | .executed _ => 1
  | _ => 0

/-- The pool `NewGearman(1, 1)` after `stopWithQueuedItemSchedule`: `Stop` has returned,
item 7 is in the queue and the run-loop stands before its `select`. -/
def stoppedWithItemWorld : World :=
  finalOf anySchedule stopWithQueuedItemSchedule (World.init pool11)

/-- Worker 0 of `NewGearman(1, 1)`, stopped, with its run-loop back at the loop condition
after it has called an item. -/
def stoppedWorkerAtHead : worker :=
  { id := 0, running := false, sleeping := false, cancelled := true, queueCap := 1,
    queue := [], errcall := some 0, idleTimeout := defaultIdleTimeout,
    loops := [{ pc := .head, timerFired := false }], wakeLog := [] }

/-! ## One producer, one key -/

/-- The policy "one producer submits under the one key `key`, `Start()` is called at most
once, and the pool is not stopped": `Submit` is admitted only with that key and only when
no `enqueue` is in progress (the previous `Submit` has returned); no step of `Stop` and no
cancellation of the context is admitted. -/
def singleProducer (key : Key) (s : World) : Action → Bool
  | .Start => s.startCalls == 0
  | .Submit k _ => k == key && s.enqueues.isEmpty
  | .StopBegin => false
  | .stopRunning _ _ => false
  | .stopCancel _ => false
  | .StopReturn _ => false
  | .cancelCtx => false
  | _ => true

/-- The items of the `Submit` calls of a schedule, in order. -/
def submitted : List Action → List WorkItem
  | [] => []
  | .Submit _ cb :: rest => cb :: submitted rest
  | _ :: rest => submitted rest

/-- The key of the worker that `getMod` selects for `key` in a pool of `n` workers. -/
def lane (key : Key) (n : Nat) : Nat := ((fnv32 key).tmod (n : Int)).toNat

/-- The items at the worker `m`: held by its run-loop, then its queue. -/
def World.laneItems (s : World) (m : Nat) : List WorkItem :=
  match s.g.workers[m]? with
  | some w => w.held ++ w.queue
  | none => []

/-- The items of the calls of `enqueue` that have not reached the queue yet. -/
def World.pending (s : World) : List WorkItem :=
  s.enqueues.filterMap (fun c => if c.pc = .wake2 then none else some c.cb)

/-- The items a run-loop step calls. -/
def LoopEffect.items : LoopEffect → List WorkItem
  | .executed cb => [cb]
  | _ => []

/-- The pool is not stopped and has `n` workers. -/
def World.Calm (s : World) (n : Nat) : Prop :=
  s.g.ctxDone = false ∧ (∀ w ∈ s.g.workers, w.cancelled = false) ∧ s.g.workers.length = n

/-- Bookkeeping of the items under the policy `singleProducer`: at most one `enqueue` is in
progress, on the worker `m`; the other workers hold nothing; and the items called, then
those at worker `m`, then the one still on its way to the queue, are the items `L`. -/
def World.Ordered (s : World) (m : Nat) (L : List WorkItem) : Prop :=
  s.enqueues.length ≤ 1 ∧ (∀ c ∈ s.enqueues, c.wid = m) ∧
  (∀ (i : Nat) (w : worker), s.g.workers[i]? = some w → i ≠ m → w.held ++ w.queue = []) ∧
  s.executed ++ s.laneItems m ++ s.pending = L

/-- `Start`; two items are submitted under the key "" one after the other; the run-loop
of worker 0 receives and calls the first. -/
def twoItemsSchedule : List Action :=
  [.Start, .Submit [] (okItem 1), .enqueue 0, .enqueue 0, .enqueue 0,
   .loop 0 0 .recv, .loop 0 0 .recv, .loop 0 0 .recv,
   .Submit [] (okItem 2), .enqueue 0, .loop 0 0 .recv]

/-! ## Router: bounds and the hash it computes -/

theorem fnv32Loop_lt (key : Key) (hash : Nat) (h : hash < 2 ^ 32) :
    fnv32Loop hash key < 2 ^ 32 := by
  induction key generalizing hash with
  | nil => simpa [fnv32Loop] using h
  | cons b rest ih =>
    simp only [fnv32Loop]
    apply ih
    apply Nat.xor_lt_two_pow (Nat.mod_lt _ (by norm_num))
    exact lt_of_lt_of_le b.isLt (by norm_num)

theorem toInt64_of_lt (x : Nat) (h : x < 2 ^ 32) : toInt64 x = (x : Int) := by
  have h1 : x % 2 ^ 64 = x := Nat.mod_eq_of_lt (lt_of_lt_of_le h (by norm_num))
  have h2 : x < 2 ^ 63 := lt_of_lt_of_le h (by norm_num)
  unfold toInt64
  rw [h1, if_pos h2]

theorem fnv32_eq (key : Key) : fnv32 key = (fnv32Loop offset32 key : Int) :=
  toInt64_of_lt _ (fnv32Loop_lt key offset32 (by norm_num [offset32]))

theorem fnv32Loop_eq_foldl (key : Key) (hash : Nat) :
    fnv32Loop hash key = key.foldl (fun h b => ((h * 16777619) % 2 ^ 32) ^^^ b.val) hash := by
  induction key generalizing hash with
  | nil => rfl
  | cons b rest ih => simp only [fnv32Loop, List.foldl_cons, prime32]; exact ih _

theorem getMod_eq (key : Key) (W : Int) (hW : 1 ≤ W) :
    getMod key W = .ok (((fnv32Loop offset32 key : Nat) : Int) % W) := by
  have hne : W ≠ 0 := by omega
  simp only [getMod, hne, if_false, fnv32_eq]
  rw [Int.tmod_eq_emod (Int.ofNat_nonneg _) (by omega)]

/-! ## The functions take only the steps of the relations -/

theorem startStep_sound {poolDone : Bool} {w w1 : worker} {j : Nat} {sel : SelectCase}
    {eff : LoopEffect} (h : w.startStep poolDone j sel = some (w1, eff)) :
    LoopStep poolDone w j w1 eff := by
  unfold worker.startStep at h
  split at h
  · cases h
  · rename_i l hl
    split at h
    · cases h; exact .entry l hl (by assumption)
    · cases h; exact .head l hl (by assumption)
    · split at h
      · split at h
        · cases h
        · cases h; exact .recv l _ _ hl (by assumption) (by assumption)
      · split at h
        · cases h; exact .done l hl (by assumption) (by assumption)
        · cases h
      · split at h
        · cases h; exact .timer l hl (by assumption) (by assumption)
        · cases h
    · cases h; exact .run l _ hl (by assumption)
    · cases h; exact .cancelled l hl (by assumption)
    · cases h; exact .idle l hl (by assumption)
    · cases h; exact .tail l hl (by assumption)

theorem enqueueStep_sound {s s1 : World} {c : Nat} {viaDone : Bool}
    (h : s.enqueueStep c viaDone = some s1) :
    Step s (if viaDone then .enqueueDone c else .enqueue c) s1 := by
  unfold World.enqueueStep at h
  split at h
  · cases h
  · rename_i call hc
    split at h
    · cases h
    · rename_i w hw
      split at h
      · rename_i hpc
        split at h
        · cases h
        · rename_i hv
          cases h
          simp only [hv]
          exact .enqWake1 c call w hc hw hpc
      · rename_i hpc
        split at h
        · rename_i hv
          split at h
          · rename_i hd
            cases h
            simp only [hv]
            exact .enqDone c call w hc hw hpc hd
          · cases h
        · rename_i hv
          split at h
          · rename_i hlt
            cases h
            simp only [hv]
            exact .enqSend c call w hc hw hpc hlt
          · cases h
      · rename_i hpc
        split at h
        · cases h
        · rename_i hv
          cases h
          simp only [hv]
          exact .enqWake2 c call w hc hw hpc

theorem step_sound {s s1 : World} {a : Action} (h : step s a = some s1) : Step s a s1 := by
  cases a with
  | Start => simp only [step, Option.some.injEq] at h; subst h; exact .start
  | Submit key cb =>
    simp only [step, Gearman.submitEntry] at h
    split at h
    · rename_i e he
      split at he
      · rename_i hd
        cases h
        exact .submitStopped key cb hd
      · split at he <;> try cases he
        split at he <;> cases he
    · cases h
    · rename_i wid he
      split at he
      · cases he
      · rename_i hd
        split at he
        · cases he
        · rename_i mod hm
          split at he
          · cases he
          · rename_i w hw
            cases he
            cases h
            exact .submit key cb mod w (by simpa using hd) hm hw
  | enqueue c => simpa using @enqueueStep_sound _ _ _ false h
  | enqueueDone c => simpa using @enqueueStep_sound _ _ _ true h
  | loop i j sel =>
    simp only [step] at h
    split at h
    · cases h
    · rename_i w hw
      split at h
      · cases h
      · rename_i w1 eff hs
        cases h
        exact .loop i j sel w w1 eff hw (startStep_sound hs)
  | tick i j =>
    simp only [step] at h
    split at h
    · cases h
    · rename_i w hw
      split at h
      · cases h
      · rename_i w1 ht
        cases h
        unfold worker.tick at ht
        split at ht
        · cases ht
        · rename_i l hl
          split at ht <;> first | cases ht; done | (cases ht; exact .tick i j w l hw hl)
  | StopBegin => simp only [step, Option.some.injEq] at h; subst h; exact .stopBegin
  | stopRunning c i =>
    simp only [step] at h
    split at h
    · rename_i call w hc hw
      split at h
      · rename_i hcond
        cases h
        exact .stopRunning c i call w hc hw hcond.1 hcond.2
      · cases h
    · cases h
  | stopCancel c =>
    simp only [step] at h
    split at h
    · rename_i call hc
      split at h
      · cases h
      · rename_i i hi
        split at h
        · cases h
        · rename_i w hw
          cases h
          exact .stopCancel c i call w hc hi hw
    · cases h
  | StopReturn c =>
    simp only [step] at h
    split at h
    · rename_i call hc
      split at h
      · rename_i hcond
        cases h
        exact .stopReturn c call hc hcond.1 hcond.2
      · cases h
    · cases h
  | cancelCtx =>
    simp only [step] at h
    split at h
    · cases h
    · rename_i hc
      cases h
      exact .cancelCtx (by simpa using hc)

/-! ## Schedules -/

theorem runWith_invariant {ok : World → Action → Bool} (P : World → Prop)
    (hstep : ∀ s a s1, P s → ok s a = true → Step s a s1 → P s1) :
    ∀ (acts : List Action) (s s1 : World), P s → runWith ok acts s = some s1 → P s1 := by
  intro acts
  induction acts with
  | nil => intro s s1 hP h; simp only [runWith, Option.some.injEq] at h; subst h; exact hP
  | cons a rest ih =>
    intro s s1 hP h
    simp only [runWith] at h
    split at h
    · rename_i hok
      split at h
      · cases h
      · rename_i s2 hs
        exact ih s2 s1 (hstep s a s2 hP hok (step_sound hs)) h
    · cases h

theorem runWith_append (ok : World → Action → Bool) (xs ys : List Action) (s : World) :
    runWith ok (xs ++ ys) s = (runWith ok xs s).bind (runWith ok ys) := by
  induction xs generalizing s with
  | nil => rfl
  | cons a rest ih =>
    simp only [List.cons_append, runWith]
    split
    · split
      · rfl
      · exact ih _
    · rfl

/-! ## Projections of the state updates -/

@[simp] theorem setWorker_workers (s : World) (i : Nat) (w : worker) :
    (s.setWorker i w).g.workers = s.g.workers.set i w := rfl
@[simp] theorem setWorker_ctxDone (s : World) (i : Nat) (w : worker) :
    (s.setWorker i w).g.ctxDone = s.g.ctxDone := rfl
@[simp] theorem setWorker_hasCancel (s : World) (i : Nat) (w : worker) :
    (s.setWorker i w).g.hasCancel = s.g.hasCancel := rfl
@[simp] theorem setWorker_gincr (s : World) (i : Nat) (w : worker) :
    (s.setWorker i w).gincr = s.gincr := rfl
@[simp] theorem setWorker_enqueues (s : World) (i : Nat) (w : worker) :
    (s.setWorker i w).enqueues = s.enqueues := rfl
@[simp] theorem setWorker_stops (s : World) (i : Nat) (w : worker) :
    (s.setWorker i w).stops = s.stops := rfl
@[simp] theorem setWorker_executed (s : World) (i : Nat) (w : worker) :
    (s.setWorker i w).executed = s.executed := rfl
@[simp] theorem setWorker_errcalls (s : World) (i : Nat) (w : worker) :
    (s.setWorker i w).errcalls = s.errcalls := rfl
@[simp] theorem setWorker_startCalls (s : World) (i : Nat) (w : worker) :
    (s.setWorker i w).startCalls = s.startCalls := rfl
@[simp] theorem setWorker_stopReturns (s : World) (i : Nat) (w : worker) :
    (s.setWorker i w).stopReturns = s.stopReturns := rfl

@[simp] theorem applyEffect_g (s : World) (eff : LoopEffect) : (s.applyEffect eff).g = s.g := by
  cases eff <;> rfl
@[simp] theorem applyEffect_enqueues (s : World) (eff : LoopEffect) :
    (s.applyEffect eff).enqueues = s.enqueues := by cases eff <;> rfl
@[simp] theorem applyEffect_stops (s : World) (eff : LoopEffect) :
    (s.applyEffect eff).stops = s.stops := by cases eff <;> rfl
@[simp] theorem applyEffect_errcalls (s : World) (eff : LoopEffect) :
    (s.applyEffect eff).errcalls = s.errcalls := by cases eff <;> rfl
@[simp] theorem applyEffect_startCalls (s : World) (eff : LoopEffect) :
    (s.applyEffect eff).startCalls = s.startCalls := by cases eff <;> rfl
@[simp] theorem applyEffect_stopReturns (s : World) (eff : LoopEffect) :
    (s.applyEffect eff).stopReturns = s.stopReturns := by cases eff <;> rfl

theorem forall_mem_set {α : Type} {P : α → Prop} {l : List α} {i : Nat} {a : α}
    (h : ∀ x ∈ l, P x) (ha : P a) : ∀ x ∈ l.set i a, P x := by
  intro x hx
  rcases List.mem_or_eq_of_mem_set hx with hx | hx
  · exact h x hx
  · exact hx ▸ ha

theorem mem_of_getElem?_eq {α : Type} {l : List α} {i : Nat} {a : α} (h : l[i]? = some a) :
    a ∈ l := by
  rw [List.getElem?_eq_some_iff] at h
  obtain ⟨hi, rfl⟩ := h
  exact List.getElem_mem hi

/-! ## At most one run-loop per worker -/

theorem length_le_one_of_getElem? {α : Type} {l : List α} {j : Nat} {a : α}
    (hlen : l.length ≤ 1) (h : l[j]? = some a) : l = [a] ∧ j = 0 := by
  rw [List.getElem?_eq_some_iff] at h
  obtain ⟨hj, rfl⟩ := h
  match l, hlen, hj with
  | [b], _, hj =>
    have : j = 0 := by simpa using hj
    subst this
    simp

theorem singleLoop_wake {n : Nat} {w : worker} (h : w.SingleLoop n) : w.wake.SingleLoop n := by
  obtain ⟨h1, h2, h3⟩ := h
  unfold worker.wake worker.atomicWaking
  by_cases hs : w.sleeping = true
  · have hl := h2 hs
    have hn : n ≠ 0 := fun h0 => by simpa [hs] using (h3 h0).2
    simp [hs, worker.spawn, worker.SingleLoop, hl, hn]
  · have hs0 : w.sleeping = false := by simpa using hs
    simp only [hs0]
    exact ⟨h1, h2, h3⟩

theorem singleLoop_loopStep {n : Nat} {pd : Bool} {w w1 : worker} {j : Nat} {eff : LoopEffect}
    (h : w.SingleLoop n) (hs : LoopStep pd w j w1 eff) : w1.SingleLoop n := by
  obtain ⟨h1, h2, h3⟩ := h
  have key : ∀ l, w.loops[j]? = some l → w.sleeping = false ∧ n ≠ 0 ∧ w.loops = [l] ∧ j = 0 := by
    intro l hl
    have hne : w.loops ≠ [] := by intro h0; simp [h0] at hl
    refine ⟨?_, ?_, length_le_one_of_getElem? h1 hl⟩
    · cases hsl : w.sleeping
      · rfl
      · exact absurd (h2 hsl) hne
    · intro h0; exact hne (h3 h0).1
  cases hs with
  | entry l hl _ | head l hl _ | recv l _ _ hl _ _ | done l hl _ _ | timer l hl _ _ | run l _ hl _ =>
    obtain ⟨hsl, hn, hlo, hj⟩ := key l hl
    simp [worker.SingleLoop, hlo, hj, hn, hsl]
  | cancelled l hl _ | idle l hl _ | tail l hl _ =>
    obtain ⟨hsl, hn, hlo, hj⟩ := key l hl
    simp [worker.SingleLoop, hlo, hj, hn, hsl]

theorem step_singleLoops {s s1 : World} {a : Action} (hinv : s.SingleLoops)
    (hok : startOnce s a = true) (hs : Step s a s1) : s1.SingleLoops := by
  unfold World.SingleLoops at *
  cases hs with
  | start =>
    have h0 : s.startCalls = 0 := by simpa [startOnce] using hok
    intro w hw
    simp only [List.mem_map] at hw
    obtain ⟨w0, hw0, rfl⟩ := hw
    obtain ⟨hl, hsl⟩ := (hinv w0 hw0).2.2 h0
    simp [worker.SingleLoop, worker.spawn, hl, hsl]
  | submitStopped _ _ _ => exact hinv
  | submit _ _ _ _ _ _ _ => exact hinv
  | enqWake1 c call w _ hw _ | enqWake2 c call w _ hw _ =>
    exact forall_mem_set hinv (singleLoop_wake (hinv w (mem_of_getElem?_eq hw)))
  | enqSend c call w _ hw _ _ =>
    exact forall_mem_set hinv (by simpa [worker.SingleLoop] using hinv w (mem_of_getElem?_eq hw))
  | enqDone _ _ _ _ _ _ _ => exact hinv
  | loop i j sel w w1 eff hw hl =>
    simp only [applyEffect_g, applyEffect_startCalls]
    exact forall_mem_set hinv (singleLoop_loopStep (hinv w (mem_of_getElem?_eq hw)) hl)
  | tick i j w l hw hl =>
    have hi := hinv w (mem_of_getElem?_eq hw)
    obtain ⟨hlo, hj⟩ := length_le_one_of_getElem? hi.1 hl
    refine forall_mem_set hinv ?_
    have hne : w.loops ≠ [] := by simp [hlo]
    have hsl : w.sleeping = false := by
      cases hsl : w.sleeping
      · rfl
      · exact absurd (hi.2.1 hsl) hne
    have hn : s.startCalls ≠ 0 := fun h0 => hne (hi.2.2 h0).1
    simp [worker.SingleLoop, hlo, hj, hn, hsl]
  | stopBegin => exact hinv
  | stopRunning c i call w _ hw _ _ =>
    exact forall_mem_set hinv
      (by simpa [worker.SingleLoop, worker.setRunning] using hinv w (mem_of_getElem?_eq hw))
  | stopCancel c i call w _ _ hw =>
    exact forall_mem_set hinv (by simpa [worker.SingleLoop] using hinv w (mem_of_getElem?_eq hw))
  | stopReturn _ _ _ _ _ => exact hinv
  | cancelCtx _ => exact hinv

/-! ## Construction -/

theorem newWorker_eq (qnum : Int) :
    newWorker qnum = if qnum ≤ 0 then .error "invalid num"
      else if chanCapLimit < qnum then .error "makechan: size out of range"
      else .ok { id := 0, running := true, sleeping := false, cancelled := false,
                 queueCap := qnum.toNat, queue := [], errcall := none, idleTimeout := 0,
                 loops := [], wakeLog := [] } := rfl

theorem workerLoop_eq (qnum : Int) (gm : Gearman) (i : Int) (n : Nat) :
    workerLoop qnum gm i n =
      if (0 < qnum ∧ qnum ≤ chanCapLimit) ∨ n = 0 then
        .ok { gm with workers := gm.workers ++
                (List.range n).map (fun (k : Nat) => builtWorker qnum gm (i + (k : Int))) }
      else if qnum ≤ 0 then .error "invalid num"
      else .error "makechan: size out of range" := by
  induction n generalizing gm i with
  | zero => simp [workerLoop]
  | succ n ih =>
    by_cases hq : 0 < qnum ∧ qnum ≤ chanCapLimit
    · have hq2 : ¬ qnum ≤ 0 := by omega
      have hq3 : ¬ chanCapLimit < qnum := by omega
      simp only [workerLoop, newWorker_eq, hq2, hq3, if_false, ih, hq, and_self, true_or, if_true]
      congr 2
      rw [List.range_succ_eq_map, List.map_cons, List.map_map, List.append_assoc]
      simp only [List.singleton_append, builtWorker, Nat.cast_zero, add_zero, List.cons.injEq,
        true_and]
      congr 2
      apply List.map_congr_left
      intro k _
      simp only [Function.comp, Nat.cast_succ, worker.mk.injEq, and_true]
      omega
    · by_cases hq2 : qnum ≤ 0
      · simp [workerLoop, newWorker_eq, hq2, hq]
      · have hq3 : chanCapLimit < qnum := by omega
        simp [workerLoop, newWorker_eq, hq2, hq3, hq]

theorem foldl_apply_fields (options : List optionCall) (gm : Gearman) :
    (options.foldl optionCall.apply gm).workers = gm.workers ∧
    (options.foldl optionCall.apply gm).ctxDone = gm.ctxDone ∧
    (options.foldl optionCall.apply gm).hasCancel = gm.hasCancel := by
  induction options generalizing gm with
  | nil => simp
  | cons op rest ih =>
    simp only [List.foldl_cons]
    obtain ⟨h1, h2, h3⟩ := ih (optionCall.apply gm op)
    rw [h1, h2, h3]
    cases op <;> simp [optionCall.apply]

theorem newGearmanWithContext_ok {cd : Bool} {wnum qnum : Int} {options : List optionCall}
    {g : Gearman} (h : NewGearmanWithContext cd wnum qnum options = .ok g) :
    ((0 < qnum ∧ qnum ≤ chanCapLimit) ∨ wnum.toNat = 0) ∧ g.ctxDone = cd ∧ g.hasCancel = false ∧
    g.workers = (List.range wnum.toNat).map (fun (k : Nat) => builtWorker qnum
      (options.foldl optionCall.apply
        { ctxDone := cd, hasCancel := false, workers := [], errcall := some 0,
          idleTimeout := defaultIdleTimeout }) (k : Int)) := by
  unfold NewGearmanWithContext at h
  rw [workerLoop_eq] at h
  obtain ⟨h1, h2, h3⟩ := foldl_apply_fields options
    { ctxDone := cd, hasCancel := false, workers := [], errcall := some 0,
      idleTimeout := defaultIdleTimeout }
  split at h
  · rename_i hc
    cases h
    simp only [h1, h2, h3, List.nil_append, zero_add]
    exact ⟨hc, trivial, trivial, trivial⟩
  · split at h <;> cases h

theorem newGearman_ok {wnum qnum : Int} {g : Gearman} (h : NewGearman wnum qnum = .ok g) :
    ((0 < qnum ∧ qnum ≤ chanCapLimit) ∨ wnum.toNat = 0) ∧ g.ctxDone = false ∧ g.hasCancel = true ∧
    g.workers = (List.range wnum.toNat).map (fun (k : Nat) => builtWorker qnum
      { ctxDone := false, hasCancel := false, workers := [], errcall := some 0,
        idleTimeout := defaultIdleTimeout } (k : Int)) := by
  unfold NewGearman at h
  split at h
  · cases h
  · rename_i gm hgm
    cases h
    obtain ⟨h1, h2, _, h4⟩ := newGearmanWithContext_ok hgm
    exact ⟨h1, h2, rfl, h4⟩

theorem constructed_workers {g : Gearman} (h : Constructed g) :
    ∃ (n : Nat) (qnum : Int) (gm : Gearman),
      g.workers = (List.range n).map (fun (k : Nat) => builtWorker qnum gm (k : Int)) := by
  obtain ⟨cd, wnum, qnum, options, h | h⟩ := h
  · exact ⟨_, _, _, (newGearmanWithContext_ok h).2.2.2⟩
  · exact ⟨_, _, _, (newGearman_ok h).2.2.2⟩

theorem constructed_fresh {g : Gearman} (h : Constructed g) : ∀ w ∈ g.workers, w.Fresh := by
  obtain ⟨n, qnum, gm, hw⟩ := constructed_workers h
  intro w hmem
  rw [hw, List.mem_map] at hmem
  obtain ⟨k, _, rfl⟩ := hmem
  simp [worker.Fresh, builtWorker]

theorem constructed_ids {g : Gearman} (h : Constructed g) :
    g.workers.map worker.id = (List.range g.workers.length).map (fun (k : Nat) => (k : Int)) := by
  obtain ⟨n, qnum, gm, hw⟩ := constructed_workers h
  rw [hw]
  simp [builtWorker, Function.comp_def]

theorem init_singleLoops {g : Gearman} (h : Constructed g) : (World.init g).SingleLoops := by
  intro w hw
  obtain ⟨_, hs, _, _, hl, _⟩ := constructed_fresh h w hw
  simp [worker.SingleLoop, hl, hs]

/-! ## Worker keys are stable -/

theorem map_set_of_eq {α β : Type} (f : α → β) {l : List α} {i : Nat} {a b : α}
    (h : l[i]? = some a) (hf : f b = f a) : (l.set i b).map f = l.map f := by
  rw [List.getElem?_eq_some_iff] at h
  obtain ⟨hi, rfl⟩ := h
  apply List.ext_getElem
  · simp
  · intro n h1 h2
    simp only [List.getElem_map, List.getElem_set]
    split
    · rename_i hn; subst hn; exact hf
    · rfl

theorem loopStep_id {pd : Bool} {w w1 : worker} {j : Nat} {eff : LoopEffect}
    (h : LoopStep pd w j w1 eff) : w1.id = w.id := by
  cases h <;> rfl

theorem wake_id (w : worker) : w.wake.id = w.id := by
  unfold worker.wake worker.atomicWaking worker.spawn
  cases w.sleeping <;> rfl

theorem step_ids {s s1 : World} {a : Action} (hs : Step s a s1) :
    s1.g.workers.map worker.id = s.g.workers.map worker.id := by
  cases hs with
  | start => simp [Function.comp_def, worker.spawn]
  | submitStopped _ _ _ => rfl
  | submit _ _ _ _ _ _ _ => rfl
  | enqWake1 c call w _ hw _ | enqWake2 c call w _ hw _ => exact map_set_of_eq _ hw (wake_id w)
  | enqSend c call w _ hw _ _ => exact map_set_of_eq _ hw rfl
  | enqDone _ _ _ _ _ _ _ => rfl
  | loop i j sel w w1 eff hw hl =>
    simp only [applyEffect_g]
    exact map_set_of_eq _ hw (loopStep_id hl)
  | tick i j w l hw hl => exact map_set_of_eq _ hw rfl
  | stopBegin => rfl
  | stopRunning c i call w _ hw _ _ => exact map_set_of_eq _ hw rfl
  | stopCancel c i call w _ _ hw => exact map_set_of_eq _ hw rfl
  | stopReturn _ _ _ _ _ => rfl
  | cancelCtx _ => rfl

theorem run_ids {ok : World → Action → Bool} {acts : List Action} {s s1 : World}
    (h : runWith ok acts s = some s1) :
    s1.g.workers.map worker.id = s.g.workers.map worker.id :=
  runWith_invariant (fun t => t.g.workers.map worker.id = s.g.workers.map worker.id)
    (fun _ _ _ hP _ hst => (step_ids hst).trans hP) acts s s1 rfl h

theorem lookup_of_ids {ws : List worker} {m : Int}
    (hids : ws.map worker.id = (List.range ws.length).map (fun (k : Nat) => (k : Int)))
    (h0 : 0 ≤ m) (hlt : m < ws.length) : ∃ w, lookupWorker ws m = some w ∧ w.id = m := by
  have hm : m.toNat < ws.length := by omega
  refine ⟨ws[m.toNat], ?_, ?_⟩
  · simp [lookupWorker, h0, List.getElem?_eq_getElem hm]
  · have h1 : (ws.map worker.id)[m.toNat]? = some (ws[m.toNat]).id := by
      simp [List.getElem?_eq_getElem hm]
    rw [hids] at h1
    simp only [List.getElem?_map, List.getElem?_range hm, Option.map_some',
      Option.some.injEq] at h1
    rw [← h1]
    omega

/-! ## Claims about the router -/

/-- C4: for every key and every worker count `W >= 1` (32-bit hash arithmetic modulo 2^32,
64-bit `int`), `getMod key W` returns an index `m` with `0 <= m < W`; and in every state of
a pool built by a constructor with `W` workers, whatever was run on it, the index that
`Submit` computes is the key of an existing worker, whose `id` is that index. -/
theorem C4_getMod_in_range (key : Key) (W : Int) (hW : 1 ≤ W) :
    (∃ m, getMod key W = .ok m ∧ 0 ≤ m ∧ m < W) ∧
    ∀ (g : Gearman) (acts : List Action) (s : World), Constructed g →
      (g.workers.length : Int) = W → runWith anySchedule acts (World.init g) = some s →
      ∃ m w, getMod key s.g.workers.length = .ok m ∧ lookupWorker s.g.workers m = some w ∧
        w.id = m := by
  have hrange : ∀ V : Int, 1 ≤ V → ∃ m, getMod key V = .ok m ∧ 0 ≤ m ∧ m < V := by
    intro V hV
    refine ⟨_, getMod_eq key V hV, Int.emod_nonneg _ (by omega), Int.emod_lt_of_pos _ (by omega)⟩
  refine ⟨hrange W hW, ?_⟩
  intro g acts s hg hlen hrun
  have hids := run_ids hrun
  have hl : s.g.workers.length = g.workers.length := by
    simpa using congrArg List.length hids
  have hids2 : s.g.workers.map worker.id =
      (List.range s.g.workers.length).map (fun (k : Nat) => (k : Int)) := by
    rw [hids, hl]; exact constructed_ids hg
  obtain ⟨m, hm, h0, hlt⟩ := hrange (s.g.workers.length : Int) (by rw [hl, hlen]; exact hW)
  obtain ⟨w, hw, hid⟩ := lookup_of_ids hids2 h0 hlt
  exact ⟨m, w, hm, hw, hid⟩

theorem newGearman_pool32 : NewGearman 3 2 = .ok pool32 := rfl

/-- Witness of C4: key "a", a pool of three workers after `Start` and one submission. -/
theorem C4_getMod_in_range_witness :
    (1 : Int) ≤ 3 ∧ (∃ m, getMod [97] 3 = .ok m ∧ 0 ≤ m ∧ m < 3) ∧
    ∃ m w, getMod [97]
        (finalOf anySchedule [.Start, .Submit [97] (okItem 1), .enqueue 0]
          (World.init pool32)).g.workers.length = .ok m ∧
      lookupWorker (finalOf anySchedule [.Start, .Submit [97] (okItem 1), .enqueue 0]
          (World.init pool32)).g.workers m = some w ∧ w.id = m :=
  ⟨by decide, (C4_getMod_in_range [97] 3 (by decide)).1,
    (C4_getMod_in_range [97] 3 (by decide)).2 pool32
      [.Start, .Submit [97] (okItem 1), .enqueue 0] _
      ⟨false, 3, 2, [], Or.inr newGearman_pool32⟩ rfl rfl⟩

/-- C9, as stated, fails: for the key "a" and 1000 workers `getMod` returns 446, while
FNV-1a of "a" modulo 1000 is 220. -/
theorem C9_not_fnv1a :
    getMod [97] 1000 = .ok 446 ∧ ((specFNV1a32 [97] : Nat) : Int) % 1000 = 220 ∧
    getMod [97] 1000 ≠ .ok (((specFNV1a32 [97] : Nat) : Int) % 1000) := by
  have h1 : getMod [97] 1000 = .ok 446 := rfl
  refine ⟨h1, by decide, ?_⟩
  intro h
  rw [h1] at h
  have h2 : (446 : Int) = ((specFNV1a32 [97] : Nat) : Int) % 1000 := by
    injection h
  revert h2
  decide

/-- C9 amended: for every key and every worker count `W >= 1`, `getMod key W` is the 32-bit
FNV-1 hash of the key (multiply by 16777619 modulo 2^32 first, then XOR the byte), reduced
modulo `W`. -/
theorem C9_getMod_is_fnv1 (key : Key) (W : Int) (hW : 1 ≤ W) :
    getMod key W = .ok (((specFNV1_32 key : Nat) : Int) % W) := by
  rw [getMod_eq key W hW, fnv32Loop_eq_foldl]
  rfl

/-- Witness of the amended C9 at the key "a" and 1000 workers. -/
theorem C9_getMod_is_fnv1_witness :
    (1 : Int) ≤ 1000 ∧ getMod [97] 1000 = .ok (((specFNV1_32 [97] : Nat) : Int) % 1000) :=
  ⟨by decide, C9_getMod_is_fnv1 [97] 1000 (by decide)⟩

/-! ## Construction and the error sink -/

theorem newGearman_panics_iff (wnum qnum : Int) :
    (∃ e, NewGearman wnum qnum = .error e) ↔
      (0 < wnum ∧ (qnum ≤ 0 ∨ chanCapLimit < qnum)) := by
  unfold NewGearman NewGearmanWithContext
  rw [workerLoop_eq]
  by_cases hq : 0 < qnum ∧ qnum ≤ chanCapLimit
  · simp only [hq, and_self, true_or, if_true]
    constructor
    · rintro ⟨e, he⟩; cases he
    · rintro ⟨_, h⟩; omega
  · by_cases hw : wnum.toNat = 0
    · simp only [hw, or_true, if_true]
      constructor
      · rintro ⟨e, he⟩; cases he
      · rintro ⟨h, _⟩; omega
    · simp only [hq, hw, or_self, if_false]
      constructor
      · intro _; omega
      · intro _
        by_cases hq2 : qnum ≤ 0
        · exact ⟨"invalid num", by simp only [hq2, if_true]⟩
        · exact ⟨"makechan: size out of range", by simp only [hq2, if_false]⟩

/-- C2: `NewGearman(0, 5)` does not panic: it returns a pool without workers, and so do
`NewGearman(-2, 0)` and `NewGearmanWithContext(ctx, 0, 5)`; `Submit` on that pool panics
with a division by zero. -/
theorem C2_zero_workers_no_panic :
    NewGearman 0 5 = .ok zeroPool ∧ NewGearman (-2) 0 = .ok zeroPool ∧
    NewGearmanWithContext false 0 5 [] = .ok emptyPool ∧ zeroPool.workers.length = 0 ∧
    zeroPool.submitEntry [97] = .panic "runtime error: integer divide by zero" :=
  ⟨rfl, rfl, rfl, rfl, rfl⟩

theorem step_errcalls {s s1 : World} {a : Action} (hs : Step s a s1) :
    s1.errcalls = s.errcalls := by
  cases hs <;> simp

theorem run_errcalls {ok : World → Action → Bool} {acts : List Action} {s s1 : World}
    (h : runWith ok acts s = some s1) : s1.errcalls = s.errcalls :=
  runWith_invariant (fun t => t.errcalls = s.errcalls)
    (fun _ _ _ hP _ hst => (step_errcalls hst).trans hP) acts s s1 rfl h

theorem newGearman_pool11 : NewGearman 1 1 = .ok pool11 := rfl

/-- C1: on `NewGearman(1, 1)`, after `Start` an item that returns the error "boom" is
submitted, received by the run-loop and called; `errcall` has not been invoked.  The method
`worker.call`, which `start` does not use, would have invoked it once with "boom". -/
theorem C1_errcall_not_invoked :
    (runWith anySchedule failingItemSchedule (World.init pool11)).map
        (fun s => (s.executed, s.errcalls, s.g.workers.map worker.loops)) =
      some ([failingItem 1], [], [[{ pc := .head, timerFired := false }]]) ∧
    (worker.call (builtWorker 1 emptyPool 0) (failingItem 1) (World.init pool11)).map
        (fun s => s.errcalls) = some [(0, "boom")] := by
  constructor <;> decide

/-! ## The history of the flag `sleeping` -/

theorem wakeLogOk_wake {w : worker} (h : w.WakeLogOk) : w.wake.WakeLogOk := by
  obtain ⟨h1, h2⟩ := h
  unfold worker.wake worker.atomicWaking
  by_cases hs : w.sleeping = true
  · have hh := h2.1 hs
    simp only [hs, if_true, worker.spawn, worker.WakeLogOk, List.chain'_cons', List.head?_cons]
    refine ⟨⟨?_, h1⟩, by simp⟩
    intro y hy
    rw [hh] at hy
    cases hy
    decide
  · have hs0 : w.sleeping = false := by simpa using hs
    simp only [hs0]
    exact ⟨h1, h2⟩

theorem wakeLogOk_loopStep {n : Nat} {pd : Bool} {w w1 : worker} {j : Nat} {eff : LoopEffect}
    (hsl : w.SingleLoop n) (h : w.WakeLogOk) (hs : LoopStep pd w j w1 eff) :
    w1.WakeLogOk := by
  obtain ⟨h1, h2⟩ := h
  have key : ∀ l, w.loops[j]? = some l → w.sleeping = false := by
    intro l hl
    have hne : w.loops ≠ [] := by intro h0; simp [h0] at hl
    cases hsl2 : w.sleeping
    · rfl
    · exact absurd (hsl.2.1 hsl2) hne
  cases hs with
  | entry l hl _ =>
    have h0 := key l hl
    refine ⟨h1, ?_⟩
    simpa [h0] using h2
  | head l hl _ | recv l _ _ hl _ _ | done l hl _ _ | timer l hl _ _ | run l _ hl _
  | cancelled l hl _ | tail l hl _ => exact ⟨h1, h2⟩
  | idle l hl _ =>
    have h0 := key l hl
    simp only [worker.WakeLogOk, List.chain'_cons', List.head?_cons]
    refine ⟨⟨?_, h1⟩, by simp⟩
    intro y hy
    have hne : w.wakeLog.head? ≠ some false := by
      intro hh
      have := h2.2 hh
      simp [h0] at this
    cases y
    · exact absurd hy hne
    · decide

theorem step_wakeLogs {s s1 : World} {a : Action} (hinv : s.SingleLoops)
    (hlog : ∀ w ∈ s.g.workers, w.WakeLogOk) (hs : Step s a s1) :
    ∀ w ∈ s1.g.workers, w.WakeLogOk := by
  cases hs with
  | start =>
    intro w hw
    simp only [List.mem_map] at hw
    obtain ⟨w0, hw0, rfl⟩ := hw
    exact hlog w0 hw0
  | submitStopped _ _ _ => exact hlog
  | submit _ _ _ _ _ _ _ => exact hlog
  | enqWake1 c call w _ hw _ | enqWake2 c call w _ hw _ =>
    exact forall_mem_set hlog (wakeLogOk_wake (hlog w (mem_of_getElem?_eq hw)))
  | enqSend c call w _ hw _ _ =>
    exact forall_mem_set hlog (hlog w (mem_of_getElem?_eq hw))
  | enqDone _ _ _ _ _ _ _ => exact hlog
  | loop i j sel w w1 eff hw hl =>
    simp only [applyEffect_g]
    exact forall_mem_set hlog
      (wakeLogOk_loopStep (hinv w (mem_of_getElem?_eq hw)) (hlog w (mem_of_getElem?_eq hw)) hl)
  | tick i j w l hw hl => exact forall_mem_set hlog (hlog w (mem_of_getElem?_eq hw))
  | stopBegin => exact hlog
  | stopRunning c i call w _ hw _ _ =>
    exact forall_mem_set hlog (hlog w (mem_of_getElem?_eq hw))
  | stopCancel c i call w _ _ hw => exact forall_mem_set hlog (hlog w (mem_of_getElem?_eq hw))
  | stopReturn _ _ _ _ _ => exact hlog
  | cancelCtx _ => exact hlog

theorem run_singleLoops {g : Gearman} {acts : List Action} {s : World} (hg : Constructed g)
    (hrun : runWith startOnce acts (World.init g) = some s) :
    s.SingleLoops ∧ ∀ w ∈ s.g.workers, w.WakeLogOk := by
  refine runWith_invariant (fun t => t.SingleLoops ∧ ∀ w ∈ t.g.workers, w.WakeLogOk)
    (fun t a t1 hP hok hst => ⟨step_singleLoops hP.1 hok hst, step_wakeLogs hP.1 hP.2 hst⟩)
    acts _ s ⟨init_singleLoops hg, ?_⟩ hrun
  intro w hw
  obtain ⟨_, hs, _, _, _, hl⟩ := constructed_fresh hg w hw
  simp [worker.WakeLogOk, hl, hs]

/-- C7: on a pool built by a constructor, in every state reached by any interleaving of
run-loop steps, timer expiries, submissions, enqueue steps and `Stop` in which `Start()` is
called at most once, every worker has at most one goroutine inside `start()` and none
while it is marked sleeping; in the history of its flag `sleeping` a successful
compare-and-swap of `atomicWaking` and a `setSleeping(true)` alternate, so between two
transitions to Sleeping the swap succeeds for at most one caller; and a swap that succeeds
leaves the worker with exactly one run-loop. -/
theorem C7_single_run_loop (g : Gearman) (acts : List Action) (s : World)
    (hg : Constructed g) (hrun : runWith startOnce acts (World.init g) = some s) :
    ∀ w ∈ s.g.workers,
      w.loops.length ≤ 1 ∧ (w.sleeping = true → w.loops = []) ∧
      List.Chain' (fun a b => a ≠ b) w.wakeLog ∧
      (w.atomicWaking.1 = true → w.wake.loops.length = 1 ∧ w.wake.atomicWaking.1 = false) := by
  obtain ⟨h1, h2⟩ := run_singleLoops hg hrun
  intro w hw
  refine ⟨(h1 w hw).1, (h1 w hw).2.1, (h2 w hw).1, ?_⟩
  intro hcas
  have hs : w.sleeping = true := by
    unfold worker.atomicWaking at hcas
    cases hsl : w.sleeping
    · simp [hsl] at hcas
    · rfl
  have hl := (h1 w hw).2.1 hs
  simp [worker.wake, worker.atomicWaking, worker.spawn, hs, hl]

/-- Witness of C7: `NewGearman(1, 1)`, started once; the worker goes to sleep on its idle
timer and is woken by a submission. -/
theorem C7_single_run_loop_witness :
    Constructed pool11 ∧
    runWith startOnce sleepWakeSchedule (World.init pool11) =
      some (finalOf startOnce sleepWakeSchedule (World.init pool11)) ∧
    (finalOf startOnce sleepWakeSchedule (World.init pool11)).g.workers.map worker.wakeLog =
      [[true, false]] ∧
    ∀ w ∈ (finalOf startOnce sleepWakeSchedule (World.init pool11)).g.workers,
      w.loops.length ≤ 1 ∧ (w.sleeping = true → w.loops = []) ∧
      List.Chain' (fun a b => a ≠ b) w.wakeLog ∧
      (w.atomicWaking.1 = true → w.wake.loops.length = 1 ∧ w.wake.atomicWaking.1 = false) :=
  ⟨⟨false, 1, 1, [], Or.inr newGearman_pool11⟩, by decide, by decide,
    C7_single_run_loop pool11 sleepWakeSchedule _ ⟨false, 1, 1, [], Or.inr newGearman_pool11⟩
      (by decide)⟩

/-! ## The termination counter -/

theorem countP_set_of_eq {α : Type} (p : α → Bool) {l : List α} {i : Nat} {a b : α}
    (h : l[i]? = some a) (hp : p b = p a) : (l.set i b).countP p = l.countP p := by
  rw [List.getElem?_eq_some_iff] at h
  obtain ⟨hi, rfl⟩ := h
  rw [List.countP_set p l i b hi, hp]
  by_cases hpa : p l[i] = true
  · have hpos : 0 < l.countP p := List.countP_pos_iff.mpr ⟨l[i], List.getElem_mem hi, hpa⟩
    simp only [hpa, if_true]
    omega
  · simp [hpa]

theorem countP_set_gain {α : Type} (p : α → Bool) {l : List α} {i : Nat} {a b : α}
    (h : l[i]? = some a) (hpa : p a = false) (hpb : p b = true) :
    (l.set i b).countP p = l.countP p + 1 := by
  rw [List.getElem?_eq_some_iff] at h
  obtain ⟨hi, rfl⟩ := h
  rw [List.countP_set p l i b hi, hpa, hpb]
  simp

theorem terminated_wake (n : Nat) (w : worker) :
    w.wake.terminated n = w.terminated n := by
  unfold worker.wake worker.atomicWaking
  by_cases hs : w.sleeping = true
  · simp [hs, worker.spawn, worker.terminated]
  · have hs0 : w.sleeping = false := by simpa using hs
    simp [hs0]

theorem terminated_loopStep {n : Nat} {pd : Bool} {w w1 : worker} {j : Nat} {eff : LoopEffect}
    (h : w.SingleLoop n) (hs : LoopStep pd w j w1 eff) :
    (eff = .counted ∧ w.terminated n = false ∧ w1.terminated n = true) ∨
    (eff ≠ .counted ∧ w1.terminated n = w.terminated n) := by
  obtain ⟨h1, h2, h3⟩ := h
  have key : ∀ l, w.loops[j]? = some l → w.sleeping = false ∧ n ≠ 0 ∧ w.loops = [l] ∧ j = 0 := by
    intro l hl
    have hne : w.loops ≠ [] := by intro h0; simp [h0] at hl
    refine ⟨?_, ?_, length_le_one_of_getElem? h1 hl⟩
    · cases hsl : w.sleeping
      · rfl
      · exact absurd (h2 hsl) hne
    · intro h0; exact hne (h3 h0).1
  cases hs with
  | entry l hl _ | head l hl _ | recv l _ _ hl _ _ | done l hl _ _ | timer l hl _ _ | run l _ hl _ =>
    obtain ⟨hsl, hn, hlo, hj⟩ := key l hl
    right
    simp [worker.terminated, hlo, hj]
  | idle l hl _ =>
    obtain ⟨hsl, hn, hlo, hj⟩ := key l hl
    right
    simp [worker.terminated, hlo, hj]
  | cancelled l hl _ | tail l hl _ =>
    obtain ⟨hsl, hn, hlo, hj⟩ := key l hl
    left
    simp [worker.terminated, hlo, hj, hsl, hn]

theorem step_counted {s s1 : World} {a : Action} (hinv : s.SingleLoops) (hc : s.Counted)
    (hok : startOnce s a = true) (hs : Step s a s1) : s1.Counted := by
  unfold World.Counted at *
  cases hs with
  | start =>
    have h0 : s.startCalls = 0 := by simpa [startOnce] using hok
    have hz : s.g.workers.countP (worker.terminated s.startCalls) = 0 := by
      rw [List.countP_eq_zero]
      intro w _
      simp [worker.terminated, h0]
    have hz1 : (s.g.workers.map worker.spawn).countP (worker.terminated (s.startCalls + 1)) = 0 := by
      rw [List.countP_eq_zero]
      intro w hw
      simp only [List.mem_map] at hw
      obtain ⟨w0, _, rfl⟩ := hw
      simp [worker.terminated, worker.spawn]
    simp only [hz1]
    rw [hc, hz]
  | submitStopped _ _ _ => exact hc
  | submit _ _ _ _ _ _ _ => exact hc
  | enqWake1 c call w _ hw _ | enqWake2 c call w _ hw _ =>
    simp only [setWorker_workers, setWorker_gincr, setWorker_startCalls]
    rw [countP_set_of_eq _ hw (terminated_wake _ w)]
    exact hc
  | enqSend c call w _ hw _ _ =>
    simp only [setWorker_workers, setWorker_gincr, setWorker_startCalls]
    rw [countP_set_of_eq _ hw (by simp [worker.terminated])]
    exact hc
  | enqDone _ _ _ _ _ _ _ => exact hc
  | loop i j sel w w1 eff hw hl =>
    simp only [applyEffect_g, applyEffect_startCalls, setWorker_workers, setWorker_startCalls]
    rcases terminated_loopStep (hinv w (mem_of_getElem?_eq hw)) hl with ⟨he, h1, h2⟩ | ⟨he, h1⟩
    · subst he
      rw [countP_set_gain _ hw h1 h2]
      simp only [World.applyEffect, setWorker_gincr]
      rw [hc]
    · rw [countP_set_of_eq _ hw h1]
      cases eff with
      | silent => exact hc
      | counted => exact absurd rfl he
      | executed cb => exact hc
  | tick i j w l hw hl =>
    simp only [setWorker_workers, setWorker_gincr, setWorker_startCalls]
    have hi := hinv w (mem_of_getElem?_eq hw)
    obtain ⟨hlo, hj⟩ := length_le_one_of_getElem? hi.1 hl
    rw [countP_set_of_eq _ hw (by simp [worker.terminated, hlo, hj])]
    exact hc
  | stopBegin => exact hc
  | stopRunning c i call w _ hw _ _ =>
    simp only [setWorker_workers, setWorker_gincr, setWorker_startCalls]
    rw [countP_set_of_eq _ hw (by simp [worker.terminated, worker.setRunning])]
    exact hc
  | stopCancel c i call w _ _ hw =>
    simp only [setWorker_workers, setWorker_gincr, setWorker_startCalls]
    rw [countP_set_of_eq _ hw (by simp [worker.terminated])]
    exact hc
  | stopReturn _ _ _ _ _ => exact hc
  | cancelCtx _ => exact hc

theorem run_counted {g : Gearman} {acts : List Action} {s : World} (hg : Constructed g)
    (hrun : runWith startOnce acts (World.init g) = some s) : s.SingleLoops ∧ s.Counted := by
  refine runWith_invariant (fun t => t.SingleLoops ∧ t.Counted)
    (fun t a t1 hP hok hst => ⟨step_singleLoops hP.1 hok hst, step_counted hP.1 hP.2 hok hst⟩)
    acts _ s ⟨init_singleLoops hg, ?_⟩ hrun
  have hz : g.workers.countP (worker.terminated 0) = 0 := by
    rw [List.countP_eq_zero]
    intro w _
    simp [worker.terminated]
  simp [World.Counted, World.init, hz]

/-- C10, as stated, fails: on `NewGearman(1, 1)`, `Start()` is called once, the run-loop of
the only worker exits on its idle timer, then `Stop()` runs to its return.  No run-loop is
left, and `gincr` is 0, not 1. -/
theorem C10_sleeping_worker_not_counted :
    (runWith startOnce sleepThenStopSchedule (World.init pool11)).map
        (fun s => (s.gincr, s.g.workers.length, s.g.workers.map worker.loops,
          s.g.workers.map worker.sleeping, s.startCalls, s.stopReturns, s.stops, s.enqueues)) =
      some (0, 1, [[]], [true], 1, 1, [], []) := rfl

/-- C10 amended: on a pool with W workers built by a constructor, on which `Start()` is
called at most once, whatever is submitted and whenever `Stop()` runs: the number of workers
stays W, `gincr` never exceeds W, and once `Start()` has been called and every run-loop has
exited, `gincr` plus the number of workers marked sleeping is exactly W (a run-loop that
exits on its idle timer does not call `worker.done`); so `gincr` is exactly W when no
worker is asleep then. -/
theorem C10_done_count (g : Gearman) (acts : List Action) (s : World)
    (hg : Constructed g) (hrun : runWith startOnce acts (World.init g) = some s) :
    s.g.workers.length = g.workers.length ∧ s.gincr ≤ g.workers.length ∧
    (s.startCalls ≠ 0 → (∀ w ∈ s.g.workers, w.loops = []) →
      s.gincr + s.g.workers.countP worker.sleeping = g.workers.length ∧
      ((∀ w ∈ s.g.workers, w.sleeping = false) → s.gincr = g.workers.length)) := by
  obtain ⟨_, hc⟩ := run_counted hg hrun
  have hl : s.g.workers.length = g.workers.length := by
    simpa using congrArg List.length (run_ids hrun)
  unfold World.Counted at hc
  refine ⟨hl, ?_, ?_⟩
  · rw [hc, ← hl]; exact List.countP_le_length _
  · intro hst hloops
    have hsum : s.gincr + s.g.workers.countP worker.sleeping = g.workers.length := by
      rw [hc, ← hl, List.length_eq_countP_add_countP worker.sleeping s.g.workers, Nat.add_comm]
      congr 1
      apply List.countP_congr
      intro w hw
      simp [worker.terminated, hst, hloops w hw]
    refine ⟨hsum, ?_⟩
    intro hns
    have hz : s.g.workers.countP worker.sleeping = 0 := by
      rw [List.countP_eq_zero]
      intro w hw
      simp [hns w hw]
    omega

theorem pool11_constructed : Constructed pool11 :=
  ⟨false, 1, 1, [], Or.inr newGearman_pool11⟩

/-- Witness of the amended C10: `NewGearman(1, 1)`, started, then stopped while its
run-loop waits in the `select`; the run-loop exits through `w.done()` and `gincr` is 1. -/
theorem C10_done_count_witness :
    Constructed pool11 ∧
    runWith startOnce startStopSchedule (World.init pool11) =
      some (finalOf startOnce startStopSchedule (World.init pool11)) ∧
    (finalOf startOnce startStopSchedule (World.init pool11)).startCalls ≠ 0 ∧
    (∀ w ∈ (finalOf startOnce startStopSchedule (World.init pool11)).g.workers, w.loops = []) ∧
    (finalOf startOnce startStopSchedule (World.init pool11)).gincr ≤ pool11.workers.length ∧
    (finalOf startOnce startStopSchedule (World.init pool11)).gincr = pool11.workers.length :=
  ⟨pool11_constructed, by decide, by decide, by decide,
    (C10_done_count pool11 startStopSchedule _ pool11_constructed (by decide)).2.1,
    (((C10_done_count pool11 startStopSchedule _ pool11_constructed (by decide)).2.2
      (by decide) (by decide)).2 (by decide))⟩

/-! ## The lost wake-up -/

/-- C6: on `NewGearman(1, 1)`, started and never stopped, the schedule `lostWakeSchedule`
ends with item 2 in the queue of worker 0 while the worker is marked sleeping, no goroutine
is inside its `start()`, and no call of `enqueue` is in progress; only item 1 has run. -/
theorem C6_item_stranded_while_sleeping :
    (runWith startOnce lostWakeSchedule (World.init pool11)).map
        (fun s => (s.g.workers.map (fun w => (w.queue, w.sleeping, w.loops)), s.enqueues,
          s.executed, s.g.ctxDone, s.stops, s.stopReturns)) =
      some ([([okItem 2], true, [])], [], [okItem 1], false, [], 0) := rfl

/-! ## Where an item can be -/

theorem held_set {w : worker} {j : Nat} {l : RunLoop} {x : WorkItem}
    (h : x ∈ (List.filterMap (fun l => match l.pc with | .run cb => some cb | _ => none)
      (w.loops.set j l))) : x ∈ w.held ∨ l.pc = .run x := by
  rw [List.mem_filterMap] at h
  obtain ⟨a, ha, hx⟩ := h
  rcases List.mem_or_eq_of_mem_set ha with ha | ha
  · left
    exact List.mem_filterMap.mpr ⟨a, ha, hx⟩
  · right
    subst ha
    split at hx
    · rename_i cb hpc
      cases hx
      exact hpc
    · cases hx

theorem held_eraseIdx {w : worker} {j : Nat} {x : WorkItem}
    (h : x ∈ (List.filterMap (fun l => match l.pc with | .run cb => some cb | _ => none)
      (w.loops.eraseIdx j))) : x ∈ w.held := by
  rw [List.mem_filterMap] at h
  obtain ⟨a, ha, hx⟩ := h
  exact List.mem_filterMap.mpr ⟨a, List.mem_of_mem_eraseIdx ha, hx⟩

theorem mem_held_of_loop {w : worker} {j : Nat} {l : RunLoop} {x : WorkItem}
    (hl : w.loops[j]? = some l) (hpc : l.pc = .run x) : x ∈ w.held :=
  List.mem_filterMap.mpr ⟨l, mem_of_getElem?_eq hl, by simp [hpc]⟩

theorem wake_queue (w : worker) : w.wake.queue = w.queue := by
  unfold worker.wake worker.atomicWaking worker.spawn
  cases w.sleeping <;> rfl

theorem spawn_held (w : worker) : w.spawn.held = w.held := by
  simp [worker.spawn, worker.held, List.filterMap_append]

theorem wake_held (w : worker) : w.wake.held = w.held := by
  unfold worker.wake worker.atomicWaking
  cases hs : w.sleeping
  · rfl
  · simp [worker.spawn, worker.held, List.filterMap_append]

theorem has_of_loopStep {pd : Bool} {w w1 : worker} {j : Nat} {eff : LoopEffect} {x : WorkItem}
    (hs : LoopStep pd w j w1 eff) (h : w1.Has x ∨ eff = .executed x) : w.Has x := by
  unfold worker.Has at *
  cases hs with
  | entry l hl hpc | head l hl hpc | done l hl hpc _ | timer l hl hpc _ =>
    rcases h with (h | h) | h
    · exact Or.inl h
    · rcases held_set h with h | h
      · exact Or.inr h
      · first
        | cases h
        | (simp only at h; split at h <;> cases h)
    · cases h
  | recv l cb rest hl hpc hq =>
    rcases h with (h | h) | h
    · left; rw [hq]; exact List.mem_cons_of_mem _ h
    · rcases held_set h with h | h
      · exact Or.inr h
      · left
        simp only [LoopPC.run.injEq] at h
        rw [hq, h]
        exact List.mem_cons_self _ _
    · cases h
  | run l cb hl hpc =>
    rcases h with (h | h) | h
    · exact Or.inl h
    · rcases held_set h with h | h
      · exact Or.inr h
      · cases h
    · cases h
      exact Or.inr (mem_held_of_loop hl hpc)
  | cancelled l hl hpc | idle l hl hpc | tail l hl hpc =>
    rcases h with (h | h) | h
    · exact Or.inl h
    · exact Or.inr (held_eraseIdx h)
    · cases h

theorem inSystem_of_set {s : World} {i : Nat} {w1 : worker} {x : WorkItem}
    (h : ∃ w0 ∈ s.g.workers.set i w1, w0.Has x) (hstep : w1.Has x → s.InSystem x) :
    s.InSystem x := by
  obtain ⟨w0, hw0, hx⟩ := h
  rcases List.mem_or_eq_of_mem_set hw0 with hm | hm
  · exact Or.inr (Or.inl ⟨w0, hm, hx⟩)
  · exact hstep (hm ▸ hx)

theorem call_of_set {s : World} {c : Nat} {call : EnqCall} {pc : EnqPC} {x : WorkItem}
    (hc : s.enqueues[c]? = some call)
    (h : ∃ c0 ∈ s.enqueues.set c { call with pc := pc }, c0.cb = x) :
    ∃ c0 ∈ s.enqueues, c0.cb = x := by
  obtain ⟨c0, hc0, hx⟩ := h
  rcases List.mem_or_eq_of_mem_set hc0 with hm | hm
  · exact ⟨c0, hm, hx⟩
  · exact ⟨call, mem_of_getElem?_eq hc, by rw [← hx, hm]⟩

theorem step_inSystem {s s1 : World} {a : Action} {x : WorkItem} (hd : s.g.ctxDone = true)
    (hs : Step s a s1) (h : s1.InSystem x) : s.InSystem x := by
  unfold World.InSystem at h
  cases hs with
  | start =>
    rcases h with h | ⟨w, hw, hx⟩ | h
    · exact Or.inl h
    · simp only [List.mem_map] at hw
      obtain ⟨w0, hw0, rfl⟩ := hw
      refine Or.inr (Or.inl ⟨w0, hw0, ?_⟩)
      unfold worker.Has at *
      rw [spawn_held] at hx
      exact hx
    · exact Or.inr (Or.inr h)
  | submitStopped _ _ _ => exact h
  | submit _ _ _ _ hnd _ _ => rw [hd] at hnd; cases hnd
  | enqWake1 c call w hc hw _ =>
    rcases h with h | h | h
    · exact Or.inl h
    · refine inSystem_of_set h (fun hx => Or.inr (Or.inl ⟨w, mem_of_getElem?_eq hw, ?_⟩))
      unfold worker.Has at *
      rw [wake_queue, wake_held] at hx
      exact hx
    · exact Or.inr (Or.inr (call_of_set hc h))
  | enqSend c call w hc hw _ _ =>
    rcases h with h | h | h
    · exact Or.inl h
    · refine inSystem_of_set h (fun hx => ?_)
      unfold worker.Has at hx
      rcases hx with hx | hx
      · simp only [List.mem_append, List.mem_singleton] at hx
        rcases hx with hx | hx
        · exact Or.inr (Or.inl ⟨w, mem_of_getElem?_eq hw, Or.inl hx⟩)
        · exact Or.inr (Or.inr ⟨call, mem_of_getElem?_eq hc, hx.symm⟩)
      · exact Or.inr (Or.inl ⟨w, mem_of_getElem?_eq hw, Or.inr hx⟩)
    · exact Or.inr (Or.inr (call_of_set hc h))
  | enqWake2 c call w hc hw _ =>
    rcases h with h | h | ⟨c0, hc0, hx⟩
    · exact Or.inl h
    · refine inSystem_of_set h (fun hx => Or.inr (Or.inl ⟨w, mem_of_getElem?_eq hw, ?_⟩))
      unfold worker.Has at *
      rw [wake_queue, wake_held] at hx
      exact hx
    · exact Or.inr (Or.inr ⟨c0, List.mem_of_mem_eraseIdx hc0, hx⟩)
  | enqDone c call w hc hw _ _ =>
    rcases h with h | h | h
    · exact Or.inl h
    · exact Or.inr (Or.inl h)
    · exact Or.inr (Or.inr (call_of_set hc h))
  | loop i j sel w w1 eff hw hl =>
    simp only [applyEffect_g, applyEffect_enqueues, setWorker_workers, setWorker_enqueues] at h
    rcases h with h | h | h
    · cases eff with
      | silent => exact Or.inl h
      | counted => exact Or.inl h
      | executed cb =>
        simp only [World.applyEffect, setWorker_executed, List.mem_append,
          List.mem_singleton] at h
        rcases h with h | h
        · exact Or.inl h
        · subst h
          exact Or.inr (Or.inl ⟨w, mem_of_getElem?_eq hw, has_of_loopStep hl (Or.inr rfl)⟩)
    · exact inSystem_of_set h
        (fun hx => Or.inr (Or.inl ⟨w, mem_of_getElem?_eq hw, has_of_loopStep hl (Or.inl hx)⟩))
    · exact Or.inr (Or.inr h)
  | tick i j w l hw hl =>
    rcases h with h | h | h
    · exact Or.inl h
    · refine inSystem_of_set h (fun hx => Or.inr (Or.inl ⟨w, mem_of_getElem?_eq hw, ?_⟩))
      unfold worker.Has at *
      rcases hx with hx | hx
      · exact Or.inl hx
      · rcases held_set hx with hx | hx
        · exact Or.inr hx
        · exact Or.inr (mem_held_of_loop hl hx)
    · exact Or.inr (Or.inr h)
  | stopBegin => exact h
  | stopRunning c i call w _ hw _ _ =>
    rcases h with h | h | h
    · exact Or.inl h
    · exact inSystem_of_set h (fun hx => Or.inr (Or.inl ⟨w, mem_of_getElem?_eq hw, hx⟩))
    · exact Or.inr (Or.inr h)
  | stopCancel c i call w _ _ hw =>
    rcases h with h | h | h
    · exact Or.inl h
    · exact inSystem_of_set h (fun hx => Or.inr (Or.inl ⟨w, mem_of_getElem?_eq hw, hx⟩))
    · exact Or.inr (Or.inr h)
  | stopReturn _ _ _ _ _ => exact h
  | cancelCtx _ => exact h

theorem step_ctxDone {s s1 : World} {a : Action} (hs : Step s a s1) (hd : s.g.ctxDone = true) :
    s1.g.ctxDone = true := by
  cases hs <;> simp [hd]

theorem step_hasCancel {s s1 : World} {a : Action} (hs : Step s a s1) :
    s1.g.hasCancel = s.g.hasCancel := by
  cases hs <;> simp

theorem step_stopCancels {s s1 : World} {a : Action} (hs : Step s a s1)
    (hc : s.g.hasCancel = true)
    (h : (s.stops ≠ [] ∨ s.stopReturns ≠ 0) → s.g.ctxDone = true) :
    (s1.stops ≠ [] ∨ s1.stopReturns ≠ 0) → s1.g.ctxDone = true := by
  cases hs with
  | stopBegin => intro _; simp [hc]
  | stopReturn c call hcall _ _ =>
    intro _
    apply h
    left
    intro h0
    simp [h0] at hcall
  | stopRunning c i call w hcall _ _ _ | stopCancel c i call w hcall _ _ =>
    intro _
    apply h
    left
    intro h0
    simp [h0] at hcall
  | cancelCtx _ => intro _; rfl
  | start | submitStopped _ _ _ | submit _ _ _ _ _ _ _ | enqWake1 _ _ _ _ _ _
  | enqSend _ _ _ _ _ _ _ | enqWake2 _ _ _ _ _ _ | enqDone _ _ _ _ _ _ _ | tick _ _ _ _ _ _ =>
    simpa using h
  | loop i j sel w w1 eff hw hl => simpa using h

/-! ## Submitting after `Stop` -/

theorem run_stopCancels {g : Gearman} {acts : List Action} {s : World}
    {ok : World → Action → Bool} (hc : g.hasCancel = true)
    (hrun : runWith ok acts (World.init g) = some s) :
    s.g.hasCancel = true ∧ ((s.stops ≠ [] ∨ s.stopReturns ≠ 0) → s.g.ctxDone = true) := by
  refine runWith_invariant
    (fun t => t.g.hasCancel = true ∧ ((t.stops ≠ [] ∨ t.stopReturns ≠ 0) → t.g.ctxDone = true))
    (fun t a t1 hP _ hst =>
      ⟨(step_hasCancel hst).trans hP.1, step_stopCancels hst hP.1 hP.2⟩)
    acts _ s ⟨hc, ?_⟩ hrun
  intro h
  simp [World.init] at h

theorem run_not_inSystem {acts : List Action} {s s1 : World} {x : WorkItem}
    {ok : World → Action → Bool} (hd : s.g.ctxDone = true) (hx : ¬ s.InSystem x)
    (hrun : runWith ok acts s = some s1) : s1.g.ctxDone = true ∧ ¬ s1.InSystem x :=
  runWith_invariant (fun t => t.g.ctxDone = true ∧ ¬ t.InSystem x)
    (fun _ _ _ hP _ hst => ⟨step_ctxDone hst hP.1, fun h => hP.2 (step_inSystem hP.1 hst h)⟩)
    acts s s1 ⟨hd, hx⟩ hrun

theorem newGearmanWithContext_ctxPool11 : NewGearmanWithContext false 1 1 [] = .ok ctxPool11 :=
  rfl

/-- C3: on the pool `NewGearmanWithContext(ctx, 1, 1)` the run-loop stands before its
`select` when `Stop()` returns.  `Stop()` has stopped the worker but, `g.cancel` being nil,
has not cancelled the pool context, so a later `Submit` does not return the "stopped"
error: it goes on to `enqueue` and returns `nil`, the item is placed in the queue of
worker 0, and the run-loop receives and calls it. -/
theorem C3_submit_accepted_after_stop :
    NewGearmanWithContext false 1 1 [] = .ok ctxPool11 ∧
    (runWith anySchedule stopAtSelectSchedule (World.init ctxPool11)).map
        (fun s => (s.stopReturns, s.stops, s.g.ctxDone, s.g.submitEntry [],
          s.g.workers.map (fun w => (w.running, w.cancelled, w.queue)))) =
      some (1, [], false, .enqueue 0, [(false, true, [])]) ∧
    (runWith anySchedule (stopAtSelectSchedule ++ submitAfterStopSchedule)
        (World.init ctxPool11)).map
        (fun s => (s.g.workers.map worker.queue, s.enqueues, s.executed)) =
      some ([[okItem 9]], [], []) ∧
    (runWith anySchedule
        (stopAtSelectSchedule ++ submitAfterStopSchedule ++ receiveAndRunSchedule)
        (World.init ctxPool11)).map (fun s => s.executed) = some [okItem 9] :=
  ⟨rfl, rfl, rfl, rfl⟩

/-- The sibling constructor: on a pool built by `NewGearman`, or built by
`NewGearmanWithContext` from a context that has been cancelled by now, in every state in
which a call of `Stop()` has returned, `Submit(key, cb)` returns the "stopped" error and
changes nothing; and an item that was not in the program then (not called, not in a queue,
not held by a run-loop, not the argument of an `enqueue` in progress) is in no queue and
has not been called in any later state. -/
theorem submit_rejected_after_stop (wnum qnum : Int) (ctxDone : Bool) (options : List optionCall)
    (g : Gearman) (acts : List Action) (s : World)
    (hg : NewGearman wnum qnum = .ok g ∨
      (NewGearmanWithContext ctxDone wnum qnum options = .ok g ∧ s.g.ctxDone = true))
    (hrun : runWith anySchedule acts (World.init g) = some s) (hstop : s.stopReturns ≠ 0)
    (key : Key) (cb : WorkItem) :
    s.g.submitEntry key = .stopped "gearman is already stopped !!!" ∧
    step s (.Submit key cb) = some s ∧
    ∀ (later : List Action) (s1 : World), ¬ s.InSystem cb →
      runWith anySchedule later s = some s1 →
      cb ∉ s1.executed ∧ (∀ w ∈ s1.g.workers, cb ∉ w.queue ∧ cb ∉ w.held) ∧
      (∀ c ∈ s1.enqueues, c.cb ≠ cb) := by
  have hd : s.g.ctxDone = true := by
    rcases hg with hg | ⟨_, hg⟩
    · exact (run_stopCancels (newGearman_ok hg).2.2.1 hrun).2 (Or.inr hstop)
    · exact hg
  have he : s.g.submitEntry key = .stopped "gearman is already stopped !!!" := by
    simp [Gearman.submitEntry, hd]
  refine ⟨he, by simp [step, he], ?_⟩
  intro later s1 hx hlater
  have hn := (run_not_inSystem hd hx hlater).2
  refine ⟨fun h => hn (Or.inl h), fun w hw => ⟨fun h => ?_, fun h => ?_⟩, fun c hc h => ?_⟩
  · exact hn (Or.inr (Or.inl ⟨w, hw, Or.inl h⟩))
  · exact hn (Or.inr (Or.inl ⟨w, hw, Or.inr h⟩))
  · exact hn (Or.inr (Or.inr ⟨c, hc, h⟩))

/-- An instance of `submit_rejected_after_stop`: `NewGearman(1, 1)` stopped while its
run-loop stands before the `select`; item 9 is submitted afterwards. -/
theorem submit_rejected_after_stop_example :
    NewGearman 1 1 = .ok pool11 ∧
    runWith anySchedule stopAtSelectSchedule (World.init pool11) = some stoppedWorld ∧
    stoppedWorld.stopReturns ≠ 0 ∧ ¬ stoppedWorld.InSystem (okItem 9) ∧
    runWith anySchedule rejectedSubmitSchedule stoppedWorld =
      some (finalOf anySchedule rejectedSubmitSchedule stoppedWorld) ∧
    stoppedWorld.g.submitEntry [] = .stopped "gearman is already stopped !!!" ∧
    step stoppedWorld (.Submit [] (okItem 9)) = some stoppedWorld ∧
    okItem 9 ∉ (finalOf anySchedule rejectedSubmitSchedule stoppedWorld).executed ∧
    (∀ w ∈ (finalOf anySchedule rejectedSubmitSchedule stoppedWorld).g.workers,
      okItem 9 ∉ w.queue ∧ okItem 9 ∉ w.held) ∧
    (∀ c ∈ (finalOf anySchedule rejectedSubmitSchedule stoppedWorld).enqueues,
      c.cb ≠ okItem 9) :=
  ⟨rfl, rfl, by decide, by unfold World.InSystem worker.Has; decide, rfl,
    (submit_rejected_after_stop 1 1 false [] pool11 stopAtSelectSchedule stoppedWorld (Or.inl rfl) rfl
      (by decide) []
      (okItem 9)).1,
    (submit_rejected_after_stop 1 1 false [] pool11 stopAtSelectSchedule stoppedWorld (Or.inl rfl) rfl
      (by decide) []
      (okItem 9)).2.1,
    (submit_rejected_after_stop 1 1 false [] pool11 stopAtSelectSchedule stoppedWorld (Or.inl rfl) rfl
      (by decide) []
      (okItem 9)).2.2 rejectedSubmitSchedule _
      (by unfold World.InSystem worker.Has; decide) rfl⟩

/-! ## After `Stop` has returned -/

theorem flagsMono_of_set {s s1 : World} {i : Nat} {w w1 : worker}
    (hws : s1.g.workers = s.g.workers.set i w1) (hw : s.g.workers[i]? = some w)
    (hr : w.running = false → w1.running = false)
    (hc : w.cancelled = true → w1.cancelled = true) : s.FlagsMono s1 := by
  intro k wk hk
  rw [hws, List.getElem?_set] at hk
  split at hk
  · rename_i hik
    subst hik
    split at hk
    · cases hk
      exact ⟨w, hw, hr, hc⟩
    · cases hk
  · exact ⟨wk, hk, id, id⟩

theorem flagsMono_of_eq {s s1 : World} (hws : s1.g.workers = s.g.workers) :
    s.FlagsMono s1 := by
  intro k wk hk
  rw [hws] at hk
  exact ⟨wk, hk, id, id⟩

theorem loopStep_flags {pd : Bool} {w w1 : worker} {j : Nat} {eff : LoopEffect}
    (h : LoopStep pd w j w1 eff) : w1.running = w.running ∧ w1.cancelled = w.cancelled := by
  cases h <;> exact ⟨rfl, rfl⟩

theorem wake_flags (w : worker) :
    w.wake.running = w.running ∧ w.wake.cancelled = w.cancelled := by
  unfold worker.wake worker.atomicWaking worker.spawn
  cases w.sleeping <;> exact ⟨rfl, rfl⟩

theorem step_flagsMono {s s1 : World} {a : Action} (hs : Step s a s1) : s.FlagsMono s1 := by
  cases hs with
  | start =>
    intro k wk hk
    simp only [List.getElem?_map, Option.map_eq_some'] at hk
    obtain ⟨w, hw, rfl⟩ := hk
    exact ⟨w, hw, id, id⟩
  | submitStopped _ _ _ => exact flagsMono_of_eq rfl
  | submit _ _ _ _ _ _ _ => exact flagsMono_of_eq rfl
  | enqWake1 c call w _ hw _ | enqWake2 c call w _ hw _ =>
    exact flagsMono_of_set rfl hw (fun h => by rw [(wake_flags w).1]; exact h)
      (fun h => by rw [(wake_flags w).2]; exact h)
  | enqSend c call w _ hw _ _ => exact flagsMono_of_set rfl hw id id
  | enqDone _ _ _ _ _ _ _ => exact flagsMono_of_eq rfl
  | loop i j sel w w1 eff hw hl =>
    have hws : ((s.setWorker i w1).applyEffect eff).g.workers = s.g.workers.set i w1 := by
      simp
    exact flagsMono_of_set hws hw (fun h => by rw [(loopStep_flags hl).1]; exact h)
      (fun h => by rw [(loopStep_flags hl).2]; exact h)
  | tick i j w l hw hl => exact flagsMono_of_set rfl hw id id
  | stopBegin => exact flagsMono_of_eq rfl
  | stopRunning c i call w _ hw _ _ => exact flagsMono_of_set rfl hw (fun _ => rfl) id
  | stopCancel c i call w _ _ hw => exact flagsMono_of_set rfl hw id (fun _ => rfl)
  | stopReturn _ _ _ _ _ => exact flagsMono_of_eq rfl
  | cancelCtx _ => exact flagsMono_of_eq rfl

theorem stopped_of_flagsMono {s s1 : World} (hm : s.FlagsMono s1) (h : s.Stopped) :
    s1.Stopped := by
  intro w1 hw1
  obtain ⟨i, hi⟩ := List.mem_iff_getElem?.mp hw1
  obtain ⟨w, hw, hr, hc⟩ := hm i w1 hi
  obtain ⟨h1, h2⟩ := h w (mem_of_getElem?_eq hw)
  exact ⟨hr h1, hc h2⟩

theorem stopsOk_of_flagsMono {s s1 : World} (hm : s.FlagsMono s1) (h : s.StopsOk)
    (hst : s1.stops = s.stops) (hrt : s1.stopReturns = s.stopReturns) : s1.StopsOk := by
  refine ⟨?_, ?_⟩
  · intro call hcall i w1 hw1
    rw [hst] at hcall
    obtain ⟨w, hw, hr, hc⟩ := hm i w1 hw1
    rcases h.1 call hcall i w hw with h1 | ⟨h1, h2⟩ | ⟨h1, h2⟩
    · exact Or.inl h1
    · exact Or.inr (Or.inl ⟨h1, hr h2⟩)
    · exact Or.inr (Or.inr ⟨hr h1, hc h2⟩)
  · intro h0
    rw [hrt] at h0
    exact stopped_of_flagsMono hm (h.2 h0)

theorem step_stopsOk {s s1 : World} {a : Action} (h : s.StopsOk) (hs : Step s a s1) :
    s1.StopsOk := by
  have hm := step_flagsMono hs
  cases hs with
  | start => exact stopsOk_of_flagsMono hm h rfl rfl
  | submitStopped _ _ _ => exact h
  | submit _ _ _ _ _ _ _ => exact stopsOk_of_flagsMono hm h rfl rfl
  | enqWake1 c call w _ hw _ | enqWake2 c call w _ hw _ =>
    exact stopsOk_of_flagsMono hm h rfl rfl
  | enqSend c call w _ hw _ _ => exact stopsOk_of_flagsMono hm h rfl rfl
  | enqDone _ _ _ _ _ _ _ => exact stopsOk_of_flagsMono hm h rfl rfl
  | loop i j sel w w1 eff hw hl => exact stopsOk_of_flagsMono hm h (by simp) (by simp)
  | tick i j w l hw hl => exact stopsOk_of_flagsMono hm h rfl rfl
  | cancelCtx _ => exact stopsOk_of_flagsMono hm h rfl rfl
  | stopBegin =>
    refine ⟨?_, fun h0 => h.2 h0⟩
    intro call hcall i w hw
    simp only [List.mem_append, List.mem_singleton] at hcall
    rcases hcall with hcall | hcall
    · exact h.1 call hcall i w hw
    · subst hcall
      left
      have hi : i < s.g.workers.length := by
        rw [List.getElem?_eq_some_iff] at hw
        exact hw.1
      simpa using hi
  | stopRunning c i call w hcall hw hcur hmem =>
    refine ⟨?_, fun h0 => stopped_of_flagsMono hm (h.2 h0)⟩
    intro call1 hcall1 k wk hk
    simp only [setWorker_workers, List.getElem?_set] at hk
    rcases List.mem_or_eq_of_mem_set hcall1 with hold | hnew
    · split at hk
      · rename_i hik
        subst hik
        split at hk
        · cases hk
          rcases h.1 call1 hold i w hw with h1 | ⟨h1, _⟩ | ⟨_, h2⟩
          · exact Or.inl h1
          · exact Or.inr (Or.inl ⟨h1, rfl⟩)
          · exact Or.inr (Or.inr ⟨rfl, h2⟩)
        · cases hk
      · exact h.1 call1 hold k wk hk
    · subst hnew
      split at hk
      · rename_i hik
        subst hik
        split at hk
        · cases hk
          exact Or.inr (Or.inl ⟨rfl, rfl⟩)
        · cases hk
      · rename_i hik
        rcases h.1 call (mem_of_getElem?_eq hcall) k wk hk with h1 | ⟨h1, _⟩ | h1
        · left
          exact (List.mem_erase_of_ne (fun hki => hik hki.symm)).mpr h1
        · rw [hcur] at h1; cases h1
        · exact Or.inr (Or.inr h1)
  | stopCancel c i call w hcall hcur hw =>
    refine ⟨?_, fun h0 => stopped_of_flagsMono hm (h.2 h0)⟩
    intro call1 hcall1 k wk hk
    simp only [setWorker_workers, List.getElem?_set] at hk
    rcases List.mem_or_eq_of_mem_set hcall1 with hold | hnew
    · split at hk
      · rename_i hik
        subst hik
        split at hk
        · cases hk
          rcases h.1 call1 hold i w hw with h1 | ⟨h1, h2⟩ | ⟨h1, _⟩
          · exact Or.inl h1
          · exact Or.inr (Or.inl ⟨h1, h2⟩)
          · exact Or.inr (Or.inr ⟨h1, rfl⟩)
        · cases hk
      · exact h.1 call1 hold k wk hk
    · subst hnew
      split at hk
      · rename_i hik
        subst hik
        split at hk
        · cases hk
          rcases h.1 call (mem_of_getElem?_eq hcall) i w hw with h1 | ⟨_, h2⟩ | ⟨h1, _⟩
          · exact Or.inl h1
          · exact Or.inr (Or.inr ⟨h2, rfl⟩)
          · exact Or.inr (Or.inr ⟨h1, rfl⟩)
        · cases hk
      · rename_i hik
        rcases h.1 call (mem_of_getElem?_eq hcall) k wk hk with h1 | ⟨h1, _⟩ | h1
        · exact Or.inl h1
        · rw [hcur] at h1
          cases h1
          exact absurd rfl hik
        · exact Or.inr (Or.inr h1)
  | stopReturn c call hcall htodo hcur =>
    have hall : s.Stopped := by
      intro w hw
      obtain ⟨i, hi⟩ := List.mem_iff_getElem?.mp hw
      rcases h.1 call (mem_of_getElem?_eq hcall) i w hi with h1 | ⟨h1, _⟩ | h1
      · rw [htodo] at h1; cases h1
      · rw [hcur] at h1; cases h1
      · exact h1
    refine ⟨?_, fun _ => hall⟩
    intro call1 hcall1 i w hw
    exact h.1 call1 (List.mem_of_mem_eraseIdx hcall1) i w hw

theorem run_stopsOk {g : Gearman} {acts : List Action} {s : World}
    {ok : World → Action → Bool} (hrun : runWith ok acts (World.init g) = some s) :
    s.StopsOk := by
  refine runWith_invariant World.StopsOk (fun t a t1 hP _ hst => step_stopsOk hP hst)
    acts _ s ⟨?_, ?_⟩ hrun
  · intro call hcall
    simp [World.init] at hcall
  · intro h
    simp [World.init] at h

theorem sum_map_set {α : Type} (f : α → Nat) {l : List α} {j : Nat} {a b : α}
    (h : l[j]? = some a) : ((l.set j b).map f).sum + f a = (l.map f).sum + f b := by
  induction l generalizing j with
  | nil => simp at h
  | cons x rest ih =>
    cases j with
    | zero =>
      simp only [List.getElem?_cons_zero, Option.some.injEq] at h
      subst h
      simp only [List.set_cons_zero, List.map_cons, List.sum_cons]
      omega
    | succ j =>
      simp only [List.getElem?_cons_succ] at h
      have := ih h
      simp only [List.set_cons_succ, List.map_cons, List.sum_cons]
      omega

theorem sum_map_eraseIdx {α : Type} (f : α → Nat) {l : List α} {j : Nat} {a : α}
    (h : l[j]? = some a) : ((l.eraseIdx j).map f).sum + f a = (l.map f).sum := by
  induction l generalizing j with
  | nil => simp at h
  | cons x rest ih =>
    cases j with
    | zero =>
      simp only [List.getElem?_cons_zero, Option.some.injEq] at h
      subst h
      simp only [List.eraseIdx_cons_zero, List.map_cons, List.sum_cons]
      omega
    | succ j =>
      simp only [List.getElem?_cons_succ] at h
      have := ih h
      simp only [List.eraseIdx_cons_succ, List.map_cons, List.sum_cons]
      omega

theorem credit_loopStep {pd : Bool} {w w1 : worker} {j : Nat} {eff : LoopEffect}
    (hr : w.running = false) (hs : LoopStep pd w j w1 eff) :
    w1.credit + eff.calls ≤ w.credit := by
  unfold worker.credit
  cases hs with
  | entry l hl hpc =>
    have := sum_map_set RunLoop.credit (b := { pc := .head, timerFired := false }) hl
    simp only [RunLoop.credit, hpc, LoopEffect.calls] at this ⊢
    omega
  | head l hl hpc =>
    have := sum_map_set RunLoop.credit (b := { l with pc := .tail }) hl
    simp only [RunLoop.credit, hpc, LoopEffect.calls, hr] at this ⊢
    simp only [Bool.false_eq_true, if_false]
    omega
  | recv l cb rest hl hpc hq =>
    have := sum_map_set RunLoop.credit (b := { pc := .run cb, timerFired := false }) hl
    simp only [RunLoop.credit, hpc, LoopEffect.calls] at this ⊢
    omega
  | done l hl hpc _ =>
    have := sum_map_set RunLoop.credit (b := { l with pc := .cancelled }) hl
    simp only [RunLoop.credit, hpc, LoopEffect.calls] at this ⊢
    omega
  | timer l hl hpc _ =>
    have := sum_map_set RunLoop.credit (b := { pc := .idle, timerFired := false }) hl
    simp only [RunLoop.credit, hpc, LoopEffect.calls] at this ⊢
    omega
  | run l cb hl hpc =>
    have := sum_map_set RunLoop.credit (b := { l with pc := .head }) hl
    simp only [RunLoop.credit, hpc, LoopEffect.calls] at this ⊢
    omega
  | cancelled l hl hpc | idle l hl hpc | tail l hl hpc =>
    have := sum_map_eraseIdx RunLoop.credit hl
    simp only [RunLoop.credit, hpc, LoopEffect.calls] at this ⊢
    omega

theorem rank_loopStep {pd : Bool} {w w1 : worker} {j : Nat} {eff : LoopEffect}
    (hr : w.running = false) (hs : LoopStep pd w j w1 eff) : w1.rank < w.rank := by
  unfold worker.rank
  cases hs with
  | entry l hl hpc =>
    have := sum_map_set RunLoop.rank (b := { pc := .head, timerFired := false }) hl
    simp only [RunLoop.rank, hpc] at this ⊢
    omega
  | head l hl hpc =>
    have := sum_map_set RunLoop.rank (b := { l with pc := .tail }) hl
    simp only [RunLoop.rank, hpc, hr] at this ⊢
    simp only [Bool.false_eq_true, if_false]
    omega
  | recv l cb rest hl hpc hq =>
    have := sum_map_set RunLoop.rank (b := { pc := .run cb, timerFired := false }) hl
    simp only [RunLoop.rank, hpc] at this ⊢
    omega
  | done l hl hpc _ =>
    have := sum_map_set RunLoop.rank (b := { l with pc := .cancelled }) hl
    simp only [RunLoop.rank, hpc] at this ⊢
    omega
  | timer l hl hpc _ =>
    have := sum_map_set RunLoop.rank (b := { pc := .idle, timerFired := false }) hl
    simp only [RunLoop.rank, hpc] at this ⊢
    omega
  | run l cb hl hpc =>
    have := sum_map_set RunLoop.rank (b := { l with pc := .head }) hl
    simp only [RunLoop.rank, hpc] at this ⊢
    omega
  | cancelled l hl hpc | idle l hl hpc | tail l hl hpc =>
    have := sum_map_eraseIdx RunLoop.rank hl
    simp only [RunLoop.rank, hpc] at this ⊢
    omega

theorem wake_credit (w : worker) : w.wake.credit = w.credit := by
  unfold worker.wake worker.atomicWaking
  cases hs : w.sleeping
  · rfl
  · simp [worker.spawn, worker.credit, RunLoop.credit]

theorem spawn_credit (w : worker) : w.spawn.credit = w.credit := by
  simp [worker.spawn, worker.credit, RunLoop.credit]

theorem credit_le_length (w : worker) : w.credit ≤ w.loops.length := by
  unfold worker.credit
  induction w.loops with
  | nil => simp
  | cons l rest ih =>
    have h1 : l.credit ≤ 1 := by
      unfold RunLoop.credit
      split <;> omega
    simp only [List.map_cons, List.sum_cons, List.length_cons]
    omega

theorem world_credit_le (s : World) :
    s.credit ≤ (s.g.workers.map (fun w => w.loops.length)).sum := by
  unfold World.credit
  induction s.g.workers with
  | nil => simp
  | cons w rest ih =>
    have := credit_le_length w
    simp only [List.map_cons, List.sum_cons]
    omega

theorem applyEffect_executed_length (s : World) (eff : LoopEffect) :
    (s.applyEffect eff).executed.length = s.executed.length + eff.calls := by
  cases eff <;> simp [World.applyEffect, LoopEffect.calls]

theorem credit_of_set {s : World} {i : Nat} {w : worker} (w1 : worker)
    (hw : s.g.workers[i]? = some w) :
    ((s.g.workers.set i w1).map worker.credit).sum + w.credit = s.credit + w1.credit :=
  sum_map_set worker.credit hw

theorem step_credit {s s1 : World} {a : Action} (hst : s.Stopped) (hs : Step s a s1) :
    s1.executed.length + s1.credit ≤ s.executed.length + s.credit := by
  cases hs with
  | start =>
    have : (World.credit { s with g := { s.g with workers := s.g.workers.map worker.spawn },
                                  startCalls := s.startCalls + 1 }) = s.credit := by
      simp [World.credit, Function.comp_def, spawn_credit]
    rw [this]
  | submitStopped _ _ _ => exact le_refl _
  | submit _ _ _ _ _ _ _ => exact le_refl _
  | enqWake1 c call w _ hw _ | enqWake2 c call w _ hw _ =>
    have := credit_of_set (w.wake) hw
    rw [wake_credit] at this
    simp only [World.credit, setWorker_workers, setWorker_executed] at this ⊢
    omega
  | enqSend c call w _ hw _ _ =>
    have := credit_of_set ({ w with queue := w.queue ++ [call.cb] }) hw
    simp only [World.credit, setWorker_workers, setWorker_executed, worker.credit] at this ⊢
    omega
  | enqDone _ _ _ _ _ _ _ => exact le_refl _
  | loop i j sel w w1 eff hw hl =>
    have h1 := credit_of_set (w1) hw
    have h2 := credit_loopStep (hst w (mem_of_getElem?_eq hw)).1 hl
    rw [applyEffect_executed_length]
    simp only [World.credit, applyEffect_g, setWorker_workers, setWorker_executed] at h1 ⊢
    omega
  | tick i j w l hw hl =>
    have h1 := credit_of_set ({ w with loops := w.loops.set j { l with timerFired := true } }) hw
    have h2 := sum_map_set RunLoop.credit (b := { l with timerFired := true }) hl
    simp only [World.credit, setWorker_workers, setWorker_executed, worker.credit,
      RunLoop.credit] at h1 h2 ⊢
    omega
  | stopBegin => exact le_refl _
  | stopRunning c i call w _ hw _ _ =>
    have := credit_of_set (w.setRunning false) hw
    simp only [World.credit, setWorker_workers, setWorker_executed, worker.credit,
      worker.setRunning] at this ⊢
    omega
  | stopCancel c i call w _ _ hw =>
    have := credit_of_set ({ w with cancelled := true }) hw
    simp only [World.credit, setWorker_workers, setWorker_executed, worker.credit] at this ⊢
    omega
  | stopReturn _ _ _ _ _ => exact le_refl _
  | cancelCtx _ => exact le_refl _

theorem startStep_enabled {pd : Bool} {w : worker} {j : Nat} {l : RunLoop}
    (hc : w.cancelled = true) (hl : w.loops[j]? = some l) :
    ∃ w1 eff, w.startStep pd j .done = some (w1, eff) := by
  unfold worker.startStep
  rw [hl]
  obtain ⟨pc, tf⟩ := l
  cases pc <;> simp [worker.ctxDone, hc]

/-- C8, as stated, fails: on `NewGearman(1, 1)` the run-loop has passed its running check
when `Stop()` runs to its return, with item 7 in the queue and nothing called yet; at its
`select` the queue and `ctx.Done()` are both ready, the `select` takes the queue, and
item 7 is called after `Stop()` has returned. -/
theorem C8_item_taken_after_stop :
    (runWith anySchedule stopWithQueuedItemSchedule (World.init pool11)).map
        (fun s => (s.stopReturns, s.stops, s.executed,
          s.g.workers.map (fun w => (w.running, w.cancelled, w.queue, w.loops)))) =
      some (1, [], [], [(false, true, [okItem 7], [{ pc := .select, timerFired := false }])]) ∧
    (runWith anySchedule (stopWithQueuedItemSchedule ++ receiveAndRunSchedule)
        (World.init pool11)).map (fun s => (s.executed, s.g.workers.map worker.queue)) =
      some ([okItem 7], [[]]) :=
  ⟨rfl, rfl⟩

/-- C8 amended: in a state `s` in which a call of `Stop()` has returned, and in every state
`s1` reached from it, every worker has `running = 0` and a cancelled context; the number
of items called after `s` is at most the number of run-loops that in `s` hold an item or
stand at their `select` (`credit`), so a run-loop takes at most one further item off its
queue, and only if it had passed its running check before; that number is at most the
number of run-loops live in `s`; and no run-loop is ever blocked: each can take a step,
and every step it takes, whichever case its `select` commits to, brings it closer to its
return (`rank`, at most 4).  A called item is taken to return. -/
theorem C8_after_stop (g : Gearman) (acts later : List Action) (s s1 : World)
    (hrun : runWith anySchedule acts (World.init g) = some s) (hstop : s.stopReturns ≠ 0)
    (hlater : runWith anySchedule later s = some s1) :
    (∀ w ∈ s1.g.workers, w.running = false ∧ w.cancelled = true) ∧
    s1.executed.length + s1.credit ≤ s.executed.length + s.credit ∧
    s.credit ≤ (s.g.workers.map (fun w => w.loops.length)).sum ∧
    ∀ (i j : Nat) (w : worker) (l : RunLoop), s1.g.workers[i]? = some w →
      w.loops[j]? = some l →
      (∃ s2, step s1 (.loop i j .done) = some s2) ∧
      ∀ (sel : SelectCase) (s2 : World), step s1 (.loop i j sel) = some s2 →
        ∃ w2, s2.g.workers[i]? = some w2 ∧ w2.rank < w.rank := by
  have hs : s.Stopped := (run_stopsOk hrun).2 hstop
  have hinv : s1.Stopped ∧ s1.executed.length + s1.credit ≤ s.executed.length + s.credit :=
    runWith_invariant
      (fun t => t.Stopped ∧ t.executed.length + t.credit ≤ s.executed.length + s.credit)
      (fun t a t1 hP _ hst =>
        ⟨stopped_of_flagsMono (step_flagsMono hst) hP.1, le_trans (step_credit hP.1 hst) hP.2⟩)
      later s s1 ⟨hs, le_refl _⟩ hlater
  refine ⟨hinv.1, hinv.2, world_credit_le s, ?_⟩
  intro i j w l hw hl
  obtain ⟨hr, hc⟩ := hinv.1 w (mem_of_getElem?_eq hw)
  obtain ⟨w1, eff, he⟩ := @startStep_enabled s1.g.ctxDone _ _ _ hc hl
  have hi : i < s1.g.workers.length := by
    rw [List.getElem?_eq_some_iff] at hw
    exact hw.1
  refine ⟨⟨(s1.setWorker i w1).applyEffect eff, by simp [step, hw, he]⟩, ?_⟩
  intro sel s2 hs2
  simp only [step, hw] at hs2
  split at hs2
  · cases hs2
  · rename_i w2 eff2 he2
    cases hs2
    exact ⟨w2, by simp [List.getElem?_set, hi], rank_loopStep hr (startStep_sound he2)⟩

/-- Witness of the amended C8: the schedule of the counterexample; the one run-loop that
stood at its `select` when `Stop()` returned calls item 7 and nothing more. -/
theorem C8_after_stop_witness :
    runWith anySchedule stopWithQueuedItemSchedule (World.init pool11) =
      some stoppedWithItemWorld ∧
    stoppedWithItemWorld.stopReturns ≠ 0 ∧
    runWith anySchedule receiveAndRunSchedule stoppedWithItemWorld =
      some (finalOf anySchedule receiveAndRunSchedule stoppedWithItemWorld) ∧
    stoppedWithItemWorld.credit = 1 ∧
    (finalOf anySchedule receiveAndRunSchedule stoppedWithItemWorld).executed.length +
        (finalOf anySchedule receiveAndRunSchedule stoppedWithItemWorld).credit ≤
      stoppedWithItemWorld.executed.length + stoppedWithItemWorld.credit ∧
    (∃ s2, step (finalOf anySchedule receiveAndRunSchedule stoppedWithItemWorld)
        (.loop 0 0 .done) = some s2) ∧
    ∃ w2, (finalOf anySchedule [.loop 0 0 .recv]
        (finalOf anySchedule receiveAndRunSchedule stoppedWithItemWorld)).g.workers[0]? =
      some w2 ∧ w2.rank < 2 :=
  ⟨rfl, by decide, rfl, by decide,
    (C8_after_stop pool11 stopWithQueuedItemSchedule receiveAndRunSchedule stoppedWithItemWorld
      _ rfl (by decide) rfl).2.1,
    ((C8_after_stop pool11 stopWithQueuedItemSchedule receiveAndRunSchedule stoppedWithItemWorld
      _ rfl (by decide) rfl).2.2.2 0 0
      stoppedWorkerAtHead { pc := .head, timerFired := false } rfl rfl).1,
    ((C8_after_stop pool11 stopWithQueuedItemSchedule receiveAndRunSchedule stoppedWithItemWorld
      _ rfl (by decide) rfl).2.2.2 0 0
      stoppedWorkerAtHead { pc := .head, timerFired := false } rfl rfl).2 .recv _ rfl⟩

/-! ## Items of one key are called in submission order -/

theorem singleProducer_startOnce {key : Key} {s : World} {a : Action}
    (h : singleProducer key s a = true) : startOnce s a = true := by
  cases a <;> simp_all [singleProducer, startOnce]

theorem step_calm {key : Key} {n : Nat} {s s1 : World} {a : Action} (h : s.Calm n)
    (hok : singleProducer key s a = true) (hs : Step s a s1) : s1.Calm n := by
  obtain ⟨h1, h2, h3⟩ := h
  have hlen : s1.g.workers.length = n := by
    rw [← h3]
    simpa using congrArg List.length (step_ids hs)
  refine ⟨?_, ?_, hlen⟩
  · cases hs with
    | stopBegin => simp [singleProducer] at hok
    | cancelCtx _ => simp [singleProducer] at hok
    | loop i j sel w w1 eff hw hl => simpa using h1
    | start | submitStopped _ _ _ | submit _ _ _ _ _ _ _ | enqWake1 _ _ _ _ _ _
    | enqSend _ _ _ _ _ _ _ | enqWake2 _ _ _ _ _ _ | enqDone _ _ _ _ _ _ _ | tick _ _ _ _ _ _
    | stopRunning _ _ _ _ _ _ _ _ | stopCancel _ _ _ _ _ _ _ | stopReturn _ _ _ _ _ =>
      exact h1
  · cases hs with
    | start =>
      intro w hw
      simp only [List.mem_map] at hw
      obtain ⟨w0, hw0, rfl⟩ := hw
      exact h2 w0 hw0
    | submitStopped _ _ _ => exact h2
    | submit _ _ _ _ _ _ _ => exact h2
    | enqWake1 c call w _ hw _ | enqWake2 c call w _ hw _ =>
      exact forall_mem_set h2 (by rw [(wake_flags w).2]; exact h2 w (mem_of_getElem?_eq hw))
    | enqSend c call w _ hw _ _ => exact forall_mem_set h2 (h2 w (mem_of_getElem?_eq hw))
    | enqDone _ _ _ _ _ _ _ => exact h2
    | loop i j sel w w1 eff hw hl =>
      simp only [applyEffect_g]
      exact forall_mem_set h2
        (by rw [(loopStep_flags hl).2]; exact h2 w (mem_of_getElem?_eq hw))
    | tick i j w l hw hl => exact forall_mem_set h2 (h2 w (mem_of_getElem?_eq hw))
    | stopBegin => simp [singleProducer] at hok
    | stopRunning _ _ _ _ _ _ _ _ => simp [singleProducer] at hok
    | stopCancel _ _ _ _ _ _ _ => simp [singleProducer] at hok
    | stopReturn _ _ _ _ _ => simp [singleProducer] at hok
    | cancelCtx _ => simp [singleProducer] at hok

theorem items_loopStep {n : Nat} {pd : Bool} {w w1 : worker} {j : Nat} {eff : LoopEffect}
    (h : w.SingleLoop n) (hs : LoopStep pd w j w1 eff) :
    eff.items ++ (w1.held ++ w1.queue) = w.held ++ w.queue := by
  have key : ∀ l, w.loops[j]? = some l → w.loops = [l] ∧ j = 0 :=
    fun l hl => length_le_one_of_getElem? h.1 hl
  cases hs with
  | entry l hl hpc | done l hl hpc _ | timer l hl hpc _ =>
    obtain ⟨hlo, hj⟩ := key l hl
    simp [worker.held, hlo, hj, LoopEffect.items, hpc]
  | head l hl hpc =>
    obtain ⟨hlo, hj⟩ := key l hl
    cases hr : w.running <;> simp [worker.held, hlo, hj, LoopEffect.items, hpc, hr]
  | recv l cb rest hl hpc hq =>
    obtain ⟨hlo, hj⟩ := key l hl
    simp [worker.held, hlo, hj, LoopEffect.items, hpc, hq]
  | run l cb hl hpc =>
    obtain ⟨hlo, hj⟩ := key l hl
    simp [worker.held, hlo, hj, LoopEffect.items, hpc]
  | cancelled l hl hpc | idle l hl hpc | tail l hl hpc =>
    obtain ⟨hlo, hj⟩ := key l hl
    simp [worker.held, hlo, hj, LoopEffect.items, hpc]

theorem applyEffect_executed (s : World) (eff : LoopEffect) :
    (s.applyEffect eff).executed = s.executed ++ eff.items := by
  cases eff <;> simp [World.applyEffect, LoopEffect.items]

theorem ordered_of_set {s s1 : World} {m i : Nat} {w w1 : worker} {L X : List WorkItem}
    (h : s.Ordered m L) (hw : s.g.workers[i]? = some w)
    (hws : s1.g.workers = s.g.workers.set i w1)
    (hlen : s1.enqueues.length ≤ 1) (hwid : ∀ c ∈ s1.enqueues, c.wid = m)
    (hX : s1.executed = s.executed ++ X)
    (hA : i = m → X ++ (w1.held ++ w1.queue) ++ s1.pending = (w.held ++ w.queue) ++ s.pending)
    (hne : i ≠ m → X = [] ∧ s1.pending = s.pending ∧ w1.held ++ w1.queue = []) :
    s1.Ordered m L := by
  obtain ⟨_, _, h3, h4⟩ := h
  have hi : i < s.g.workers.length := by
    rw [List.getElem?_eq_some_iff] at hw
    exact hw.1
  refine ⟨hlen, hwid, ?_, ?_⟩
  · intro k wk hk hkm
    rw [hws, List.getElem?_set] at hk
    split at hk
    · rename_i hik
      subst hik
      simp only [hi, if_true, Option.some.injEq] at hk
      subst hk
      exact (hne hkm).2.2
    · exact h3 k wk hk hkm
  · by_cases him : i = m
    · subst him
      have hl0 : s.laneItems i = w.held ++ w.queue := by simp [World.laneItems, hw]
      have hl1 : s1.laneItems i = w1.held ++ w1.queue := by
        simp [World.laneItems, hws, List.getElem?_set, hi]
      rw [hl0] at h4
      have hA1 := hA rfl
      rw [hl1, hX, ← h4]
      simp only [List.append_assoc] at hA1 ⊢
      rw [hA1]
    · obtain ⟨hx, hp, _⟩ := hne him
      have hl1 : s1.laneItems m = s.laneItems m := by
        simp [World.laneItems, hws, List.getElem?_set, him]
      rw [hl1, hX, hx, hp, List.append_nil]
      exact h4

theorem getMod_lane {key : Key} {n : Nat} {mod : Int} (h : getMod key (n : Int) = .ok mod) :
    mod.toNat = lane key n := by
  unfold getMod at h
  split at h
  · cases h
  · cases h
    rfl

theorem step_ordered {key : Key} {n : Nat} {s s1 : World} {a : Action} {L : List WorkItem}
    (hsl : s.SingleLoops) (hc : s.Calm n) (h : s.Ordered (lane key n) L)
    (hok : singleProducer key s a = true) (hs : Step s a s1) :
    s1.Ordered (lane key n) (L ++ submitted [a]) := by
  obtain ⟨hnd, hnc, hlen⟩ := hc
  have hcall : ∀ (c : Nat) (call : EnqCall), s.enqueues[c]? = some call →
      s.enqueues = [call] ∧ c = 0 ∧ call.wid = lane key n := by
    intro c call hcl
    obtain ⟨h1, h2⟩ := length_le_one_of_getElem? h.1 hcl
    exact ⟨h1, h2, h.2.1 call (mem_of_getElem?_eq hcl)⟩
  cases hs with
  | start =>
    obtain ⟨h1, h2, h3, h4⟩ := h
    refine ⟨h1, h2, ?_, ?_⟩
    · intro i w hw hi
      simp only [List.getElem?_map, Option.map_eq_some'] at hw
      obtain ⟨w0, hw0, rfl⟩ := hw
      show w0.spawn.held ++ w0.queue = []
      rw [spawn_held]
      exact h3 i w0 hw0 hi
    · have hl : World.laneItems
          { s with g := { s.g with workers := s.g.workers.map worker.spawn },
                   startCalls := s.startCalls + 1 } (lane key n) = s.laneItems (lane key n) := by
        unfold World.laneItems
        simp only [List.getElem?_map]
        cases hw : s.g.workers[lane key n]? with
        | none => rfl
        | some w0 =>
          show w0.spawn.held ++ w0.queue = w0.held ++ w0.queue
          rw [spawn_held]
      simp only [submitted, List.append_nil]
      rw [hl]
      exact h4
  | submitStopped _ _ hd => rw [hnd] at hd; cases hd
  | submit k cb mod w _ hm hw =>
    obtain ⟨h1, h2, h3, h4⟩ := h
    simp only [singleProducer, Bool.and_eq_true, beq_iff_eq, List.isEmpty_iff] at hok
    obtain ⟨hk, he⟩ := hok
    subst hk
    rw [hlen] at hm
    have hwid := getMod_lane hm
    refine ⟨by simp [he], ?_, h3, ?_⟩
    · intro c hcm
      simp only [he, List.nil_append, List.mem_singleton] at hcm
      subst hcm
      exact hwid
    · simp only [World.pending, he, List.filterMap_nil, List.append_nil] at h4
      simp only [submitted, World.pending, he, List.nil_append, List.filterMap_cons,
        List.filterMap_nil]
      rw [← h4]
      simp [World.laneItems]
  | enqWake1 c call w hcl hw hpc =>
    obtain ⟨he, hc0, hwid⟩ := hcall c call hcl
    simp only [submitted, List.append_nil]
    refine ordered_of_set (X := []) h hw rfl (by simp [he]) ?_ (by simp) ?_ ?_
    · intro c1 hc1
      simp only [he, hc0, List.set_cons_zero, List.mem_singleton] at hc1
      subst hc1
      exact hwid
    · intro _
      simp [World.pending, he, hc0, hpc, wake_held, wake_queue]
    · intro hne; exact absurd hwid hne
  | enqSend c call w hcl hw hpc _ =>
    obtain ⟨he, hc0, hwid⟩ := hcall c call hcl
    simp only [submitted, List.append_nil]
    refine ordered_of_set (X := []) h hw rfl (by simp [he]) ?_ (by simp) ?_ ?_
    · intro c1 hc1
      simp only [he, hc0, List.set_cons_zero, List.mem_singleton] at hc1
      subst hc1
      exact hwid
    · intro _
      simp [World.pending, he, hc0, hpc, worker.held]
    · intro hne; exact absurd hwid hne
  | enqWake2 c call w hcl hw hpc =>
    obtain ⟨he, hc0, hwid⟩ := hcall c call hcl
    simp only [submitted, List.append_nil]
    refine ordered_of_set (X := []) h hw rfl (by simp [he, hc0]) ?_ (by simp) ?_ ?_
    · intro c1 hc1
      simp [he, hc0] at hc1
    · intro _
      simp [World.pending, he, hc0, hpc, wake_held, wake_queue]
    · intro hne; exact absurd hwid hne
  | enqDone c call w hcl hw hpc hdone =>
    have := hnc w (mem_of_getElem?_eq hw)
    simp [worker.ctxDone, hnd, this] at hdone
  | loop i j sel w w1 eff hw hl =>
    have hit := items_loopStep (hsl w (mem_of_getElem?_eq hw)) hl
    have hws : ((s.setWorker i w1).applyEffect eff).g.workers = s.g.workers.set i w1 := by
      simp
    simp only [submitted, List.append_nil]
    refine ordered_of_set (X := eff.items) h hw hws (by simpa using h.1)
      (by simpa using h.2.1) (by rw [applyEffect_executed]; rfl) ?_ ?_
    · intro _
      have hp : ((s.setWorker i w1).applyEffect eff).pending = s.pending := by
        simp [World.pending]
      rw [hp, hit]
    · intro hne
      have h0 := h.2.2.1 i w hw hne
      rw [h0] at hit
      have hp : ((s.setWorker i w1).applyEffect eff).pending = s.pending := by
        simp [World.pending]
      exact ⟨(List.append_eq_nil.mp hit).1, hp, (List.append_eq_nil.mp hit).2⟩
  | tick i j w l hw hl =>
    obtain ⟨hlo, hj⟩ := length_le_one_of_getElem? (hsl w (mem_of_getElem?_eq hw)).1 hl
    have hheld : worker.held { w with loops := w.loops.set j { l with timerFired := true } } =
        w.held := by
      simp only [worker.held, hlo, hj, List.set_cons_zero]
      rfl
    simp only [submitted, List.append_nil]
    refine ordered_of_set (X := []) h hw rfl h.1 h.2.1 (by simp) ?_ ?_
    · intro _
      rw [hheld]
      rfl
    · intro hne
      have h0 := h.2.2.1 i w hw hne
      rw [hheld]
      exact ⟨rfl, rfl, h0⟩
  | stopBegin => simp [singleProducer] at hok
  | stopRunning _ _ _ _ _ _ _ _ => simp [singleProducer] at hok
  | stopCancel _ _ _ _ _ _ _ => simp [singleProducer] at hok
  | stopReturn _ _ _ _ _ => simp [singleProducer] at hok
  | cancelCtx _ => simp [singleProducer] at hok

theorem submitted_cons (a : Action) (rest : List Action) :
    submitted (a :: rest) = submitted [a] ++ submitted rest := by
  cases a <;> simp [submitted]

theorem run_ordered {key : Key} {n : Nat} (acts : List Action) :
    ∀ (s s1 : World) (L : List WorkItem), s.SingleLoops → s.Calm n →
      s.Ordered (lane key n) L → runWith (singleProducer key) acts s = some s1 →
      s1.SingleLoops ∧ s1.Ordered (lane key n) (L ++ submitted acts) := by
  induction acts with
  | nil =>
    intro s s1 L h1 _ h3 h
    simp only [runWith, Option.some.injEq] at h
    subst h
    simpa [submitted] using And.intro h1 h3
  | cons a rest ih =>
    intro s s1 L h1 h2 h3 h
    simp only [runWith] at h
    split at h
    · rename_i hok
      split at h
      · cases h
      · rename_i s2 hs
        have hst := step_sound hs
        have := ih s2 s1 (L ++ submitted [a])
          (step_singleLoops h1 (singleProducer_startOnce hok) hst) (step_calm h2 hok hst)
          (step_ordered h1 h2 h3 hok hst) h
        rw [submitted_cons, ← List.append_assoc]
        exact this
    · cases h

theorem held_length_le (w : worker) : w.held.length ≤ w.loops.length :=
  List.length_filterMap_le _ _

/-- C5: on a pool built by a constructor whose context is not cancelled, under every
interleaving in which `Start()` is called at most once, nothing stops the pool, and one
producer makes its `Submit` calls one after the other, all with the same key: the items
called so far, in the order of their calls, are an initial segment of the items submitted,
in the order of submission; no worker has more than one item taken off its queue and not
yet returned (an item is received only after the previous one has returned); and the
items called, then the one held and those queued at the worker of that key, then the one
still on its way into the queue, are exactly the items submitted, in order. -/
theorem C5_same_key_in_order (g : Gearman) (key : Key) (acts : List Action) (s : World)
    (hg : Constructed g) (hnd : g.ctxDone = false)
    (hrun : runWith (singleProducer key) acts (World.init g) = some s) :
    s.executed <+: submitted acts ∧ (∀ w ∈ s.g.workers, w.held.length ≤ 1) ∧
    s.executed ++ s.laneItems (lane key g.workers.length) ++ s.pending = submitted acts := by
  have hfresh := constructed_fresh hg
  have hcalm : (World.init g).Calm g.workers.length :=
    ⟨hnd, fun w hw => (hfresh w hw).2.2.1, rfl⟩
  have hord : (World.init g).Ordered (lane key g.workers.length) [] := by
    refine ⟨by simp [World.init], by simp [World.init], ?_, ?_⟩
    · intro i w hw _
      obtain ⟨_, _, _, hq, hl, _⟩ := hfresh w (mem_of_getElem?_eq hw)
      simp [worker.held, hq, hl]
    · have hl : (World.init g).laneItems (lane key g.workers.length) = [] := by
        unfold World.laneItems
        split
        · rename_i w hw
          obtain ⟨_, _, _, hq, hl, _⟩ := hfresh w (mem_of_getElem?_eq hw)
          simp [worker.held, hq, hl]
        · rfl
      rw [hl]
      simp [World.init, World.pending]
  obtain ⟨h1, h2⟩ := run_ordered acts _ s [] (init_singleLoops hg) hcalm hord hrun
  simp only [List.nil_append] at h2
  refine ⟨⟨s.laneItems (lane key g.workers.length) ++ s.pending, ?_⟩, ?_, h2.2.2.2⟩
  · rw [← List.append_assoc]
    exact h2.2.2.2
  · intro w hw
    exact le_trans (held_length_le w) (h1 w hw).1

/-- Witness of C5: on `NewGearman(1, 1)` items 1 and 2 are submitted under the key "";
item 1 has been called, item 2 is on its way into the queue. -/
theorem C5_same_key_in_order_witness :
    Constructed pool11 ∧ pool11.ctxDone = false ∧
    runWith (singleProducer []) twoItemsSchedule (World.init pool11) =
      some (finalOf (singleProducer []) twoItemsSchedule (World.init pool11)) ∧
    submitted twoItemsSchedule = [okItem 1, okItem 2] ∧
    (finalOf (singleProducer []) twoItemsSchedule (World.init pool11)).executed = [okItem 1] ∧
    (finalOf (singleProducer []) twoItemsSchedule (World.init pool11)).executed <+:
      submitted twoItemsSchedule ∧
    (∀ w ∈ (finalOf (singleProducer []) twoItemsSchedule (World.init pool11)).g.workers,
      w.held.length ≤ 1) :=
  ⟨pool11_constructed, rfl, rfl, rfl, rfl,
    (C5_same_key_in_order pool11 [] twoItemsSchedule _ pool11_constructed rfl rfl).1,
    (C5_same_key_in_order pool11 [] twoItemsSchedule _ pool11_constructed rfl rfl).2.1⟩
end GoGearman
